import Mathlib

/-!
Verification of the picross (nonogram) solver.

This file gives a shallow embedding, in Lean, of the three Rust source
files of the repository (`src/cell.rs` (implied), `src/hint.rs`,
`src/board.rs`, `src/main.rs`) and proves properties of the embedded
definitions.

Modelling conventions:
* A `Cell` is a `Bool` (`true` = filled, `false` = blank).  The file
  `cell.rs` is not part of the sources given, but every use site
  (`vec![false; length]`, `!a`, `Board<bool>`) forces `Cell = bool`.
* Machine integers (`usize`, `NonZeroUsize`) are modelled as `Nat`;
  the `NonZeroUsize` invariant of hints appears as an explicit
  positivity hypothesis where a theorem needs it.
* Fallible behaviour is made explicit with `Option`: a `none` result
  of a modelled function stands for a panic (failed `assert!`,
  `unwrap` of `None`, arithmetic underflow) or for undefined behaviour
  of an out-of-bounds raw-pointer access.  A `some` result is the
  value the Rust code produces.
* Rust's `usize` subtraction panics on underflow in debug builds (and
  is equally fatal in release, where the wrapped value immediately
  overflows an allocation); both are modelled as `none`.
-/

set_option linter.unusedVariables false

abbrev Cell := Bool

/-- Run-length sequence of the maximal runs of `true` (filled) cells of a
line; `acc` is the length of the run currently being scanned.  A `false`
cell or the end of the list terminates (and emits) a nonempty current run,
so consecutive runs are separated by at least one `false` cell. -/
def runsAux : List Bool → Nat → List Nat
  | [], 0 => []
  | [], n + 1 => [n + 1]
  | true :: xs, n => runsAux xs (n + 1)
  | false :: xs, 0 => runsAux xs 0
  | false :: xs, n + 1 => (n + 1) :: runsAux xs 0

/-- The lengths of the maximal runs of filled cells of a line, in
left-to-right order. -/
def runLengths (l : List Bool) : List Nat := runsAux l 0

/-- `Hint::permutations`, single-block arm (`Some((line, &[]))` in
`hint.rs`): if the block is longer than the line there is no pattern,
otherwise one pattern per starting offset `i ∈ 0..=length-l`, each built
as left padding, the filled block, right padding. -/
def singleBlockPerms (l n : Nat) : List (List Cell) :=
  if l > n then []
  else (List.range (n - l + 1)).map fun i =>
    List.replicate i false ++ List.replicate l true ++ List.replicate (n - i - l) false

/-- Order-preserving deduplication keeping the first occurrence (the
behaviour of collecting into an `IndexSet` and back out); `seen` holds the
values already emitted. -/
def dedupFirstGo (seen : List (List Cell)) : List (List Cell) → List (List Cell)
  | [] => []
  | x :: xs => if x ∈ seen then dedupFirstGo seen xs else x :: dedupFirstGo (x :: seen) xs

/-- `perms.into_iter().collect::<IndexSet<_>>().into_iter().collect()`. -/
def dedupFirst (l : List (List Cell)) : List (List Cell) := dedupFirstGo [] l

/-- `Hint::permutations` from `hint.rs`, with an explicit structural bound
(`fuel`) on the hint length standing in for the well-founded recursion of
the Rust function (which recurses on `split_last`, i.e. on shorter hint
slices).  The three arms mirror the three arms of the Rust `match`:

* no blocks: exactly one all-blank pattern;
* one block: `singleBlockPerms`;
* several blocks, the last split off: for every split point
  `i ∈ 1..(length - last)` combine every permutation of the prefix over
  `i` cells, one separating blank, and every permutation of the last
  block over `length - i - 1` cells; finally deduplicate preserving the
  first occurrence (the Rust code routes the list through an `IndexSet`).

When `length < last` the Rust bound `length - line_len` underflows
(`usize` subtraction), a panic: modelled as `none`. -/
def permGo : Nat → List Nat → Nat → Option (List (List Cell))
  | _, [], n => some [List.replicate n false]
  | _, [l], n => some (singleBlockPerms l n)
  | fuel + 1, l₀ :: l₁ :: ls, n =>
    let rest := (l₀ :: l₁ :: ls).dropLast
    let lst := (l₁ :: ls).getLastD 0
    if n < lst then none
    else
      ((List.range' 1 (n - lst - 1)).foldlM
        (fun acc i =>
          match permGo fuel rest i with
          | none => none
          | some sub => some (acc ++ sub.flatMap fun p =>
              (singleBlockPerms lst (n - i - 1)).map fun lp => p ++ false :: lp))
        []).map dedupFirst
  | 0, _ :: _ :: _, _ => none

/-- `Hint::permutations(length)`: all fill patterns of the given length
whose maximal filled runs are exactly the hint's blocks in order. -/
def permutations (hint : List Nat) (length : Nat) : Option (List (List Cell)) :=
  permGo hint.length hint length

/-- `perm_matches` from `hint.rs`: asserts the two lines have equal length
(panic modelled as `none`), then checks no already-known cell of `y`
disagrees with the pattern `x`. -/
def perm_matches (x : List Cell) (y : List (Option Cell)) : Option Bool :=
  if x.length = y.length then
    some (!(x.zip y).any fun ab => ab.2 == some (!ab.1))
  else none

/-- The per-cell combination of `overlay`: a known value survives only if
the new pattern agrees with it. -/
def overlayCell (a : Option Cell) (b : Cell) : Option Cell :=
  match a with
  | none => none
  | some v => if v = b then some v else none

/-- `overlay` from `hint.rs`: asserts equal lengths (panic modelled as
`none`), then combines the accumulated three-valued line with one more
pattern cell by cell. -/
def overlay (dst : List (Option Cell)) (src : List Cell) : Option (List (Option Cell)) :=
  if dst.length = src.length then some (List.zipWith overlayCell dst src)
  else none

/-- `sum_perms` from `hint.rs`: `some none` when the pattern sequence is
empty (the Rust function returns `None`, signalling contradiction),
otherwise the left fold of `overlay` over the sequence starting from the
first pattern; `none` models a panic inside `overlay`. -/
def sum_perms (perms : List (List Cell)) : Option (Option (List (Option Cell))) :=
  match perms with
  | [] => some none
  | first :: rest => (rest.foldlM overlay (first.map some)).map some

/-- Keeping, in order, the patterns that match a partially known line:
this is both the `filter` in `brute_progress` and the `Vec::retain` in
`find_solution`.  A panic inside `perm_matches` is propagated as
`none`. -/
def retainMatches (perms : List (List Cell)) (line : List (Option Cell)) :
    Option (List (List Cell)) :=
  match perms with
  | [] => some []
  | p :: ps => do
    let b ← perm_matches p line
    let rest ← retainMatches ps line
    pure (if b then p :: rest else rest)

/-- `Hint::brute_progress` from `hint.rs`: enumerate the hint's patterns at
the line's length, keep those matching the known cells, and merge the
survivors with `sum_perms`.  Outer `none` = panic, inner `none` =
contradiction (no surviving pattern). -/
def brute_progress (hint : List Nat) (line : List (Option Cell)) :
    Option (Option (List (Option Cell))) := do
  let ps ← permutations hint line.length
  let fs ← retainMatches ps line
  sum_perms fs

/-! ### `board.rs` -/

/-- `Board<T>` from `board.rs`: a `width × height` dense array in row-major
order.  The raw-pointer storage is modelled as the flat element list; the
type's construction invariant is `data.length = width * height`. -/
structure Board (T : Type) where
  width : Nat
  height : Nat
  data : List T
  deriving Repr, DecidableEq

/-- `Board::new_default` / `Board::new`: every cell set to one value. -/
def Board.newFill (w h : Nat) (v : T) : Board T := ⟨w, h, List.replicate (w * h) v⟩

/-- `Board::row_checked`: the bounds check is `i < self.height`; the
returned slice is the `width` elements starting at `width * i`. -/
def row_checked (b : Board T) (i : Nat) : Option (List T) :=
  if i < b.height then some ((b.data.drop (b.width * i)).take b.width) else none

/-- `Board::row_checked_mut`: the source checks `i < self.width` (not
`height`) before handing out the row slice. -/
def row_checked_mut (b : Board T) (i : Nat) : Option (List T) :=
  if i < b.width then some ((b.data.drop (b.width * i)).take b.width) else none

/-- `Board::col_checked` (and `col`, which unwraps it): bounds check
`x < self.width`, then one element per `y < height` at offset
`x + width * y`.  Reading past the end of the storage is undefined
behaviour, modelled by the second guard returning `none`. -/
def col_checked [Inhabited T] (b : Board T) (x : Nat) : Option (List T) :=
  if x < b.width then
    if b.height = 0 ∨ x + b.width * (b.height - 1) < b.data.length then
      some ((List.range b.height).map fun y => b.data.getD (x + b.width * y) default)
    else none
  else none

/-- `Board::set_row`: unwraps `row_checked_mut` (panic modelled as `none`
when its — width-based — check fails), then asserts the value has the
slice's length (which is `width`), then overwrites the row.  A splice
that would run past the end of the storage is undefined behaviour,
modelled as `none`. -/
def set_row (b : Board T) (i : Nat) (v : List T) : Option (Board T) :=
  if i < b.width then
    if b.width * i + b.width ≤ b.data.length then
      if v.length = b.width then
        some ⟨b.width, b.height,
          b.data.take (b.width * i) ++ v ++ b.data.drop (b.width * i + b.width)⟩
      else none
    else none
  else none

/-- `Board::set_col`: asserts `x < width` and `vec.len() = height`, then
writes element `y` of the value at offset `x + width * y`.  Writes past
the end of the storage are undefined behaviour, modelled as `none`. -/
def set_col (b : Board T) (x : Nat) (v : List T) : Option (Board T) :=
  if x < b.width then
    if v.length = b.height then
      if b.height = 0 ∨ x + b.width * (b.height - 1) < b.data.length then
        some ⟨b.width, b.height,
          v.enum.foldl (fun d p => d.set (x + b.width * p.1) p.2) b.data⟩
      else none
    else none
  else none

/-! ### `main.rs` -/

abbrev GuessBoard := Board (Option Cell)
abbrev SectionPerms := List (List (List Cell))

/-- The solver state `Picross` from `main.rs` (minus the local loop
variable `first_run`, which is threaded separately since it is reset on
every `find_solution` call).  The backtrack stack is a list with the most
recently pushed entry at the head. -/
structure Picross where
  board : GuessBoard
  rowsPerms : SectionPerms
  colsPerms : SectionPerms
  backtrack : List (GuessBoard × SectionPerms × SectionPerms)
  numBacktracks : Nat
  deriving Repr, DecidableEq

/-- `Picross::new`: the board is `col_hints.len() × row_hints.len()`, all
cells unknown; the candidate sets are the full permutation lists of each
hint at the perpendicular dimension.  A panic inside `permutations`
propagates as `none`. -/
def Picross.new (rowHints colHints : List (List Nat)) : Option Picross := do
  let w := colHints.length
  let h := rowHints.length
  let rows ← rowHints.mapM fun hint => permutations hint w
  let cols ← colHints.mapM fun hint => permutations hint h
  pure ⟨Board.newFill w h none, rows, cols, [], 0⟩

/-- Result of one row (or column) pass of `find_solution`'s loop:
`panic` for a Rust panic / UB, `contra` when `sum_perms` signals an empty
candidate set (the `None` arm that pops the backtrack stack), `ok` with
the updated board, the updated candidate sets and the progress flag. -/
inductive PassRes where
  | panic
  | contra
  | ok (board : GuessBoard) (perms : SectionPerms) (progressed : Bool)
  deriving Repr, DecidableEq

/-- The row pass of `find_solution` (`for (y, row_perms) in ...`),
processing the candidate sets from row index `y` upward: read the row,
retain the matching candidates, and — if the set shrank or this is the
first run — re-merge and write the row back when it changed.  On `contra`
the partial updates are irrelevant (the caller replaces the whole state
from the backtrack stack). -/
def row_pass (fr : Bool) (b : GuessBoard) (y : Nat) (permss : SectionPerms) : PassRes :=
  match permss with
  | [] => .ok b [] false
  | perms :: rest =>
    match row_checked b y with
    | none => .panic
    | some row =>
      match retainMatches perms row with
      | none => .panic
      | some perms1 =>
        if perms1.length < perms.length || fr then
          match sum_perms perms1 with
          | none => .panic
          | some none => .contra
          | some (some newRow) =>
            if newRow ≠ row then
              match set_row b y newRow with
              | none => .panic
              | some b2 =>
                match row_pass fr b2 (y + 1) rest with
                | .ok b3 rest1 prog => .ok b3 (perms1 :: rest1) (true || prog)
                | r => r
            else
              match row_pass fr b (y + 1) rest with
              | .ok b3 rest1 prog => .ok b3 (perms1 :: rest1) (false || prog)
              | r => r
        else
          match row_pass fr b (y + 1) rest with
          | .ok b3 rest1 prog => .ok b3 (perms1 :: rest1) (false || prog)
          | r => r

/-- The column pass of `find_solution`, identical in structure to the row
pass but reading with `col` and writing with `set_col`. -/
def col_pass (fr : Bool) (b : GuessBoard) (x : Nat) (permss : SectionPerms) : PassRes :=
  match permss with
  | [] => .ok b [] false
  | perms :: rest =>
    match col_checked b x with
    | none => .panic
    | some col =>
      match retainMatches perms col with
      | none => .panic
      | some perms1 =>
        if perms1.length < perms.length || fr then
          match sum_perms perms1 with
          | none => .panic
          | some none => .contra
          | some (some newCol) =>
            if newCol ≠ col then
              match set_col b x newCol with
              | none => .panic
              | some b2 =>
                match col_pass fr b2 (x + 1) rest with
                | .ok b3 rest1 prog => .ok b3 (perms1 :: rest1) (true || prog)
                | r => r
            else
              match col_pass fr b (x + 1) rest with
              | .ok b3 rest1 prog => .ok b3 (perms1 :: rest1) (false || prog)
              | r => r
        else
          match col_pass fr b (x + 1) rest with
          | .ok b3 rest1 prog => .ok b3 (perms1 :: rest1) (false || prog)
          | r => r

/-- `row.iter().copied().map(Option::unwrap).collect()`: unwrap every
cell of a line, panicking (modelled `none`) on an unknown cell. -/
def unwrapLine : List (Option Cell) → Option (List Cell)
  | [] => some []
  | none :: _ => none
  | some v :: r => (unwrapLine r).map (v :: ·)

/-- Materializing the solution (`// Found a solution` in
`find_solution`): a fresh default board of the same size receives each
row of the solved board, unwrapped cell by cell (`Option::unwrap`, panic
on an unknown cell modelled as `none`; `set_row` carries its own checked
failure modes). -/
def materialize (b : GuessBoard) : Option (Board Cell) :=
  (List.range b.height).foldlM
    (fun fb y => do
      let r ← row_checked b y
      let r1 ← unwrapLine r
      set_row fb y r1)
    (Board.newFill b.width b.height false)

/-- Outcome of one full iteration of `find_solution`'s `loop`. -/
inductive StepRes where
  | panic
  | found (sol : Board Cell) (st : Picross)
  | noMore
  | next (fr : Bool) (st : Picross)
  deriving Repr, DecidableEq

/-- `self.backtrack.pop()?` followed by `continue`: restore the most
recent snapshot, or — with an empty stack — make `find_solution` return
`None`. -/
def handle_contra (st : Picross) (fr : Bool) : StepRes :=
  match st.backtrack with
  | [] => .noMore
  | (b, rp, cp) :: rest => .next fr ⟨b, rp, cp, rest, st.numBacktracks⟩

/-- Setting one cell of the flat storage
(`self.board.as_slice_mut()[i] = v`). -/
def setCellAt (b : GuessBoard) (i : Nat) (v : Option Cell) : GuessBoard :=
  ⟨b.width, b.height, b.data.set i v⟩

/-- One iteration of `find_solution`'s `loop`: the row pass, the column
pass (each popping the backtrack stack on contradiction, with `first_run`
unchanged), then — with `first_run` now false — either return a
materialized solution (progress made and no unknown cell left), keep
propagating, or, when stuck, branch on the lowest row-major unknown index
(clone pushed with the cell blank, live state continues with it filled) or
pop the stack when no unknown cell remains. -/
def step (fr : Bool) (st : Picross) : StepRes :=
  match row_pass fr st.board 0 st.rowsPerms with
  | .panic => .panic
  | .contra => handle_contra st fr
  | .ok b1 rp1 prog1 =>
    match col_pass fr b1 0 st.colsPerms with
    | .panic => .panic
    | .contra => handle_contra st fr
    | .ok b2 cp1 prog2 =>
      if prog1 || prog2 then
        if b2.data.all (·.isSome) then
          match materialize b2 with
          | none => .panic
          | some sol => .found sol ⟨b2, rp1, cp1, st.backtrack, st.numBacktracks⟩
        else .next false ⟨b2, rp1, cp1, st.backtrack, st.numBacktracks⟩
      else
        match b2.data.findIdx? (·.isNone) with
        | some i =>
          .next false ⟨setCellAt b2 i (some true), rp1, cp1,
            (setCellAt b2 i (some false), rp1, cp1) :: st.backtrack,
            st.numBacktracks + 1⟩
        | none => handle_contra ⟨b2, rp1, cp1, st.backtrack, st.numBacktracks⟩ false

/-- Result of a whole `find_solution` call: `fuelOut` when the iteration
bound is exhausted (the Rust loop just keeps running), `panic` for a
panic / UB, `noMore` for the `None` return (backtrack stack exhausted),
`found` for a returned solution together with the persisting solver
state. -/
inductive RunRes where
  | panic
  | fuelOut
  | noMore
  | found (sol : Board Cell) (st : Picross)
  deriving Repr, DecidableEq

/-- The `loop` of `find_solution`, iterated up to `fuel` times. -/
def find_solution_go : Nat → Bool → Picross → RunRes
  | 0, _, _ => .fuelOut
  | fuel + 1, fr, st =>
    match step fr st with
    | .panic => .panic
    | .noMore => .noMore
    | .found sol st1 => .found sol st1
    | .next fr1 st1 => find_solution_go fuel fr1 st1

/-- `Picross::find_solution`: enters the loop with the local
`first_run = true`. -/
def find_solution (fuel : Nat) (st : Picross) : RunRes :=
  find_solution_go fuel true st

/-- `Picross::get_solutions`: call `find_solution` until it yields no
further solution, collecting the solutions in order.  `none` when a call
panicked or a fuel bound ran out. -/
def get_solutions : Nat → Nat → Picross → Option (List (Board Cell))
  | 0, _, _ => none
  | ofuel + 1, ifuel, st =>
    match find_solution ifuel st with
    | .panic => none
    | .fuelOut => none
    | .noMore => some []
    | .found sol st1 => (get_solutions ofuel ifuel st1).map (sol :: ·)

/-! ### Run-length lemmas -/

theorem runsAux_nil_zero : runsAux [] 0 = [] := rfl

theorem runsAux_nil_succ (n : Nat) : runsAux [] (n + 1) = [n + 1] := rfl

theorem runsAux_cons_true (xs : List Bool) (n : Nat) :
    runsAux (true :: xs) n = runsAux xs (n + 1) := rfl

theorem runsAux_cons_false_zero (xs : List Bool) :
    runsAux (false :: xs) 0 = runsAux xs 0 := rfl

theorem runsAux_cons_false_succ (xs : List Bool) (n : Nat) :
    runsAux (false :: xs) (n + 1) = (n + 1) :: runsAux xs 0 := rfl

theorem runsAux_append_false (xs ys : List Bool) (n : Nat) :
    runsAux (xs ++ false :: ys) n = runsAux xs n ++ runsAux ys 0 := by
  induction xs generalizing n with
  | nil =>
    cases n <;>
      simp [runsAux_cons_false_zero, runsAux_cons_false_succ, runsAux_nil_zero,
        runsAux_nil_succ]
  | cons x xs ih =>
    cases x <;> cases n <;>
      simp [runsAux_cons_true, runsAux_cons_false_zero, runsAux_cons_false_succ, ih]

theorem runsAux_replicate_true (k : Nat) (ys : List Bool) (n : Nat) :
    runsAux (List.replicate k true ++ ys) n = runsAux ys (n + k) := by
  induction k generalizing n with
  | zero => simp
  | succ k ih =>
    rw [List.replicate_succ, List.cons_append, runsAux_cons_true, ih]
    congr 1
    omega

theorem runsAux_replicate_false (k : Nat) (ys : List Bool) :
    runsAux (List.replicate k false ++ ys) 0 = runsAux ys 0 := by
  induction k with
  | zero => simp
  | succ k ih =>
    rw [List.replicate_succ, List.cons_append, runsAux_cons_false_zero, ih]

theorem runLengths_replicate_false (k : Nat) : runLengths (List.replicate k false) = [] := by
  have h := runsAux_replicate_false k []
  simpa [runLengths] using h

theorem runsAux_replicate_false_flush (r n : Nat) :
    runsAux (List.replicate r false) (n + 1) = [n + 1] := by
  cases r with
  | zero => simp [runsAux]
  | succ r =>
    have h := runLengths_replicate_false r
    rw [List.replicate_succ, runsAux_cons_false_succ]
    simpa [runLengths] using h

theorem runLengths_single_pattern (i l r : Nat) (hl : 0 < l) :
    runLengths (List.replicate i false ++ List.replicate l true ++ List.replicate r false)
      = [l] := by
  obtain ⟨m, rfl⟩ := Nat.exists_eq_succ_of_ne_zero (Nat.pos_iff_ne_zero.mp hl)
  unfold runLengths
  rw [List.append_assoc, runsAux_replicate_false, runsAux_replicate_true]
  simpa using runsAux_replicate_false_flush r m

theorem runsAux_size (l : List Bool) (n : Nat) :
    (runsAux l n).sum + (runsAux l n).length ≤ l.length + n + 1 := by
  induction l generalizing n with
  | nil => cases n <;> simp [runsAux]
  | cons x xs ih =>
    cases x with
    | true =>
      have h := ih (n + 1)
      rw [runsAux_cons_true]
      simp only [List.length_cons]
      omega
    | false =>
      cases n with
      | zero =>
        have h := ih 0
        rw [runsAux_cons_false_zero]
        simp only [List.length_cons]
        omega
      | succ n =>
        have h := ih 0
        rw [runsAux_cons_false_succ]
        simp only [List.sum_cons, List.length_cons]
        omega

theorem runLengths_size (p : List Bool) :
    (runLengths p).sum + (runLengths p).length ≤ p.length + 1 := by
  simpa [runLengths] using runsAux_size p 0

/-! ### `dedupFirst` lemmas -/

theorem mem_dedupFirstGo : ∀ (l seen : List (List Cell)), ∀ p ∈ dedupFirstGo seen l, p ∈ l := by
  intro l
  induction l with
  | nil => intro seen p hp; simp [dedupFirstGo] at hp
  | cons x xs ih =>
    intro seen p hp
    rw [dedupFirstGo] at hp
    split at hp
    · exact List.mem_cons_of_mem _ (ih seen p hp)
    · rcases List.mem_cons.mp hp with h | h
      · exact h ▸ List.mem_cons_self _ _
      · exact List.mem_cons_of_mem _ (ih _ p h)

theorem mem_dedupFirst (l : List (List Cell)) : ∀ p ∈ dedupFirst l, p ∈ l :=
  mem_dedupFirstGo l []

theorem nodup_dedupFirstGo :
    ∀ (l seen : List (List Cell)),
      (dedupFirstGo seen l).Nodup ∧ ∀ p ∈ dedupFirstGo seen l, p ∉ seen := by
  intro l
  induction l with
  | nil => intro seen; simp [dedupFirstGo]
  | cons x xs ih =>
    intro seen
    rw [dedupFirstGo]
    split
    · exact (ih seen)
    · rename_i hx
      obtain ⟨hnd, hns⟩ := ih (x :: seen)
      refine ⟨List.nodup_cons.mpr ⟨fun hmem => ?_, hnd⟩, ?_⟩
      · exact hns x hmem (List.mem_cons_self _ _)
      · intro p hp
        rcases List.mem_cons.mp hp with h | h
        · exact h ▸ hx
        · exact fun hpseen => hns p h (List.mem_cons_of_mem _ hpseen)

theorem nodup_dedupFirst (l : List (List Cell)) : (dedupFirst l).Nodup :=
  (nodup_dedupFirstGo l []).1

/-! ### `permutations` unfolding and membership -/

theorem permutations_nil (n : Nat) :
    permutations [] n = some [List.replicate n false] := rfl

theorem permutations_single (l n : Nat) :
    permutations [l] n = some (singleBlockPerms l n) := rfl

theorem permutations_concat (rest : List Nat) (hr : rest ≠ []) (lst n : Nat) :
    permutations (rest ++ [lst]) n =
      if n < lst then none
      else
        ((List.range' 1 (n - lst - 1)).foldlM
          (fun acc i =>
            match permutations rest i with
            | none => none
            | some sub => some (acc ++ sub.flatMap fun p =>
                (singleBlockPerms lst (n - i - 1)).map fun lp => p ++ false :: lp))
          []).map dedupFirst := by
  obtain ⟨a, as, rfl⟩ := List.exists_cons_of_ne_nil hr
  have hlen : ((a :: as) ++ [lst]).length = (a :: as).length + 1 := by simp
  obtain ⟨b, bs, hbs⟩ : ∃ b bs, as ++ [lst] = b :: bs := by
    cases as with
    | nil => exact ⟨lst, [], rfl⟩
    | cons c cs => exact ⟨c, cs ++ [lst], rfl⟩
  show permGo ((a :: as) ++ [lst]).length ((a :: as) ++ [lst]) n = _
  rw [List.cons_append, hbs]
  have h1 : (a :: b :: bs).length = (as ++ [lst]).length + 1 := by
    rw [hbs]; simp
  rw [h1]
  have h2 : (as ++ [lst]).length = as.length + 1 := by simp
  rw [h2, permGo]
  have hdrop : (a :: b :: bs).dropLast = a :: as := by
    rw [← hbs, ← List.cons_append, List.dropLast_concat]
  have hlast : (b :: bs).getLastD 0 = lst := by
    rw [← hbs]
    cases as with
    | nil => rfl
    | cons c cs =>
      show ((c :: cs) ++ [lst]).getLastD 0 = lst
      rw [List.getLastD_eq_getLast?, List.getLast?_concat]
      rfl
  rw [hdrop, hlast]
  have hfuel : as.length + 1 = (a :: as).length := by simp
  rw [hfuel]
  rfl

/-! ### `singleBlockPerms` lemmas -/

theorem mem_singleBlockPerms {l n : Nat} {p : List Cell} (h : p ∈ singleBlockPerms l n) :
    l ≤ n ∧ ∃ i, i ≤ n - l ∧
      p = List.replicate i false ++ List.replicate l true
            ++ List.replicate (n - i - l) false := by
  unfold singleBlockPerms at h
  split at h
  · simp at h
  · rename_i hln
    obtain ⟨i, hi, rfl⟩ := List.mem_map.mp h
    have hi2 := List.mem_range.mp hi
    exact ⟨by omega, i, by omega, rfl⟩

theorem singleBlockPerms_length {l n : Nat} {p : List Cell} (h : p ∈ singleBlockPerms l n) :
    p.length = n := by
  obtain ⟨hln, i, hi, rfl⟩ := mem_singleBlockPerms h
  simp only [List.length_append, List.length_replicate]
  omega

theorem singleBlockPerms_runs {l n : Nat} (hl : 0 < l) {p : List Cell}
    (h : p ∈ singleBlockPerms l n) : runLengths p = [l] := by
  obtain ⟨hln, i, hi, rfl⟩ := mem_singleBlockPerms h
  exact runLengths_single_pattern _ _ _ hl

theorem getD_replicate_self {α : Type} (a : α) (r k : Nat) :
    (List.replicate r a).getD k a = a := by
  induction r generalizing k with
  | zero => simp
  | succ r ih => cases k <;> simp [List.replicate_succ, ih]

theorem getD_sbp_pattern (i l r k : Nat) :
    (List.replicate i false ++ List.replicate l true ++ List.replicate r false).getD k false
      = decide (i ≤ k ∧ k < i + l) := by
  induction i generalizing k with
  | zero =>
    simp only [List.replicate_zero, List.nil_append]
    induction l generalizing k with
    | zero => simp [getD_replicate_self]
    | succ l ihl =>
      cases k with
      | zero => simp [List.replicate_succ]
      | succ k =>
        rw [List.replicate_succ, List.cons_append]
        have := ihl k
        simp only [List.getD_cons_succ, this]
        simp only [decide_eq_decide]
        omega
  | succ i ihi =>
    cases k with
    | zero => simp [List.replicate_succ]
    | succ k =>
      rw [List.replicate_succ, List.cons_append, List.cons_append]
      have := ihi k
      simp only [List.getD_cons_succ, this]
      simp only [decide_eq_decide]
      omega

theorem singleBlockPerms_nodup (l n : Nat) (hl : 0 < l) : (singleBlockPerms l n).Nodup := by
  have key : ∀ i j : Nat, i < j →
      (List.replicate i false ++ List.replicate l true
          ++ List.replicate (n - i - l) false : List Cell)
        ≠ List.replicate j false ++ List.replicate l true
            ++ List.replicate (n - j - l) false := by
    intro i j hij heq
    have h1 := getD_sbp_pattern i l (n - i - l) i
    have h2 := getD_sbp_pattern j l (n - j - l) i
    rw [heq, h2] at h1
    have h3 : (j ≤ i ∧ i < j + l) ↔ (i ≤ i ∧ i < i + l) := by
      rw [← decide_eq_decide]
      exact h1
    omega
  unfold singleBlockPerms
  split
  · exact List.nodup_nil
  · refine List.Nodup.map_on ?_ (List.nodup_range _)
    intro i _ j _ heq
    rcases Nat.lt_trichotomy i j with h | h | h
    · exact absurd heq (key i j h)
    · exact h
    · exact absurd heq.symm (key j i h)

/-! ### Soundness of `permutations` -/

theorem permFold_mem (rest : List Nat) (lst n : Nat) :
    ∀ (is : List Nat) (acc out : List (List Cell)),
      (is.foldlM (fun acc i =>
          match permutations rest i with
          | none => none
          | some sub => some (acc ++ sub.flatMap fun p =>
              (singleBlockPerms lst (n - i - 1)).map fun lp => p ++ false :: lp))
        acc) = some out →
      ∀ p ∈ out, p ∈ acc ∨ ∃ i, i ∈ is ∧ ∃ sub, permutations rest i = some sub ∧
        ∃ q, q ∈ sub ∧ ∃ lp, lp ∈ singleBlockPerms lst (n - i - 1) ∧
          p = q ++ false :: lp := by
  intro is
  induction is with
  | nil =>
    intro acc out h p hp
    simp only [List.foldlM_nil] at h
    cases h
    exact Or.inl hp
  | cons i is ih =>
    intro acc out h p hp
    rw [List.foldlM_cons] at h
    cases hall : permutations rest i with
    | none =>
      rw [hall] at h
      simp at h
    | some sub =>
      rw [hall] at h
      simp only [Option.some_bind] at h
      rcases ih _ _ h p hp with hin | ⟨i1, hi1, rr⟩
      · rcases List.mem_append.mp hin with hin | hin
        · exact Or.inl hin
        · obtain ⟨q, hq, lp0, hlp, rfl⟩ := by
            simpa using List.mem_flatMap.mp hin
          exact Or.inr ⟨i, List.mem_cons_self _ _, sub, hall, q, hq, lp0, hlp, rfl⟩
      · exact Or.inr ⟨i1, List.mem_cons_of_mem _ hi1, rr⟩

theorem perm_length : ∀ (H : List Nat) (n ps : _), permutations H n = some ps →
    ∀ p ∈ ps, p.length = n := by
  intro H
  induction H using List.reverseRecOn with
  | nil =>
    intro n ps h p hp
    rw [permutations_nil] at h
    cases h
    simp only [List.mem_singleton] at hp
    simp [hp]
  | append_singleton rest lst ih =>
    intro n ps h p hp
    cases hrest : rest with
    | nil =>
      subst hrest
      rw [List.nil_append, permutations_single] at h
      cases h
      exact singleBlockPerms_length hp
    | cons a as =>
      rw [permutations_concat rest (by simp [hrest]) lst n] at h
      split at h
      · cases h
      · rename_i hnl
        obtain ⟨raw, hraw, rfl⟩ := Option.map_eq_some'.mp h
        have hp2 := mem_dedupFirst raw p hp
        rcases permFold_mem rest lst n _ _ _ hraw p hp2 with h0 | ⟨i, hi, sub, hsub, q, hq, lp, hlp, rfl⟩
        · simp at h0
        · have hq2 := ih i sub hsub q hq
          have hlp2 := singleBlockPerms_length hlp
          have hi2 := List.mem_range'_1.mp hi
          simp only [List.length_append, List.length_cons, hq2, hlp2]
          omega

theorem perm_runs : ∀ (H : List Nat) (n ps : _), (∀ x ∈ H, 0 < x) →
    permutations H n = some ps → ∀ p ∈ ps, runLengths p = H := by
  intro H
  induction H using List.reverseRecOn with
  | nil =>
    intro n ps _ h p hp
    rw [permutations_nil] at h
    cases h
    simp only [List.mem_singleton] at hp
    simp [hp, runLengths_replicate_false]
  | append_singleton rest lst ih =>
    intro n ps hpos h p hp
    cases hrest : rest with
    | nil =>
      subst hrest
      rw [List.nil_append, permutations_single] at h
      cases h
      exact singleBlockPerms_runs (hpos lst (by simp)) hp
    | cons a as =>
      rw [permutations_concat rest (by simp [hrest]) lst n] at h
      split at h
      · cases h
      · obtain ⟨raw, hraw, rfl⟩ := Option.map_eq_some'.mp h
        have hp2 := mem_dedupFirst raw p hp
        rcases permFold_mem rest lst n _ _ _ hraw p hp2 with h0 | ⟨i, hi, sub, hsub, q, hq, lp, hlp, rfl⟩
        · simp at h0
        · have hq2 := ih i sub (fun x hx => hpos x (List.mem_append_left _ hx)) hsub q hq
          have hlp2 := singleBlockPerms_runs (hpos lst (by simp)) hlp
          rw [show runLengths (q ++ false :: lp) = runLengths q ++ runLengths lp from
            runsAux_append_false q lp 0, hq2, hlp2, hrest]

theorem perm_nodup : ∀ (H : List Nat) (n ps : _), (∀ x ∈ H, 0 < x) →
    permutations H n = some ps → ps.Nodup := by
  intro H
  induction H using List.reverseRecOn with
  | nil =>
    intro n ps _ h
    rw [permutations_nil] at h
    cases h
    simp
  | append_singleton rest lst ih =>
    intro n ps hpos h
    cases hrest : rest with
    | nil =>
      subst hrest
      rw [List.nil_append, permutations_single] at h
      cases h
      exact singleBlockPerms_nodup lst n (hpos lst (by simp))
    | cons a as =>
      rw [permutations_concat rest (by simp [hrest]) lst n] at h
      split at h
      · cases h
      · obtain ⟨raw, hraw, rfl⟩ := Option.map_eq_some'.mp h
        exact nodup_dedupFirst raw

/-- C2: for every hint sequence `H` (positive blocks, the `NonZeroUsize`
invariant) and every length `n`, every pattern in a list returned by
`permutations H n` has length exactly `n` and its maximal runs of filled
cells are exactly `H` in order (`runLengths`, whose runs are maximal and
hence separated by at least one blank), and the returned list has no
duplicate patterns. -/
theorem claim_C2 (H : List Nat) (n : Nat) (ps : List (List Cell))
    (hpos : ∀ x ∈ H, 0 < x) (h : permutations H n = some ps) :
    (∀ p ∈ ps, p.length = n ∧ runLengths p = H) ∧ ps.Nodup :=
  ⟨fun p hp => ⟨perm_length H n ps h p hp, perm_runs H n ps hpos h p hp⟩,
   perm_nodup H n ps hpos h⟩

/-- Witness for C2 at the concrete hint `[2, 3]` over length 6. -/
theorem claim_C2_witness :
    permutations [2, 3] 6 = some [[true, true, false, true, true, true]] ∧
    ((∀ p ∈ [[true, true, false, true, true, true]], p.length = 6 ∧ runLengths p = [2, 3]) ∧
      ([[true, true, false, true, true, true]] : List (List Cell)).Nodup) :=
  ⟨by decide, claim_C2 [2, 3] 6 [[true, true, false, true, true, true]]
    (by decide) (by decide)⟩

/-- C4 (counterexample): the hint `[1, 3]` over length 2 needs
`1 + 3 + 1 = 5 > 2` cells, so by the claim `permutations` should return
the empty pattern list without panicking; instead the recursion underflows
(`1..length - line_len` with `length = 2 < 3 = line_len`) and the call
panics (modelled `none`), returning no list at all. -/
theorem claim_C4_counterexample :
    ([1, 3] : List Nat).sum + (([1, 3] : List Nat).length - 1) > 2 ∧
    permutations [1, 3] 2 = none := by decide

/-- C4 (amended): for every positive hint `H` and length `n` with the
blocks plus mandatory separators needing more than `n` cells, whenever
`permutations H n` returns at all (some infeasible inputs panic instead,
see the counterexample), the returned pattern list is empty; the
infeasibility therefore surfaces only as a zero-permutation line. -/
theorem claim_C4 (H : List Nat) (n : Nat) (ps : List (List Cell))
    (hpos : ∀ x ∈ H, 0 < x) (hinf : H.sum + (H.length - 1) > n)
    (h : permutations H n = some ps) : ps = [] := by
  cases hps : ps with
  | nil => rfl
  | cons p rest =>
    exfalso
    have hmem : p ∈ ps := by rw [hps]; exact List.mem_cons_self _ _
    have hlen := perm_length H n ps h p hmem
    have hruns := perm_runs H n ps hpos h p hmem
    have hsize := runLengths_size p
    rw [hruns, hlen] at hsize
    have hne : H ≠ [] := by
      intro he
      rw [he] at hinf
      simp at hinf
    have : 1 ≤ H.length := by
      cases H with
      | nil => exact absurd rfl hne
      | cons a as => simp
    omega

/-- Witness for C4 at the concrete hint `[1, 1]` over length 2
(needs 3 cells): the returned pattern list is empty. -/
theorem claim_C4_witness :
    ([1, 1] : List Nat).sum + (([1, 1] : List Nat).length - 1) > 2 ∧
    permutations [1, 1] 2 = some [] ∧ ([] : List (List Cell)) = [] :=
  ⟨by decide, by decide, claim_C4 [1, 1] 2 [] (by decide) (by decide) (by decide)⟩

/-! ### `perm_matches`, `overlay`, `sum_perms` characterizations -/

theorem perm_matches_total (x : List Cell) (y : List (Option Cell))
    (h : x.length = y.length) : ∃ b, perm_matches x y = some b := by
  unfold perm_matches
  rw [if_pos h]
  exact ⟨_, rfl⟩

theorem perm_matches_cons_true (a : Cell) (xs : List Cell) (b : Option Cell)
    (ys : List (Option Cell)) (hlen : xs.length = ys.length) :
    (perm_matches (a :: xs) (b :: ys) = some true ↔
      b ≠ some (!a) ∧ perm_matches xs ys = some true) := by
  unfold perm_matches
  rw [if_pos (by simpa using hlen), if_pos hlen]
  simp only [List.zip_cons_cons, List.any_cons, Option.some.injEq, Bool.not_or,
    Bool.and_eq_true, Bool.not_eq_true', beq_eq_false_iff_ne]

theorem perm_matches_true_iff : ∀ (x : List Cell) (y : List (Option Cell)),
    x.length = y.length →
    (perm_matches x y = some true ↔
      ∀ k v, y.getD k none = some v → x.getD k false = v) := by
  intro x
  induction x with
  | nil =>
    intro y hy
    have hy0 : y = [] := List.eq_nil_of_length_eq_zero hy.symm
    subst hy0
    constructor
    · intro _ k v hk
      simp at hk
    · intro _
      rfl
  | cons a xs ih =>
    intro y hy
    cases y with
    | nil => simp at hy
    | cons b ys =>
      have hlen : xs.length = ys.length := by simpa using hy
      rw [perm_matches_cons_true a xs b ys hlen, ih ys hlen]
      constructor
      · intro ⟨h1, h2⟩ k v hv
        cases k with
        | zero =>
          simp only [List.getD_cons_zero] at hv ⊢
          subst hv
          cases v with
          | true =>
            by_contra hfalse
            simp only [Bool.not_eq_true] at hfalse
            exact h1 (by rw [hfalse]; rfl)
          | false =>
            by_contra hfalse
            simp only [Bool.not_eq_false] at hfalse
            exact h1 (by rw [hfalse]; rfl)
        | succ k =>
          simp only [List.getD_cons_succ] at hv ⊢
          exact h2 k v hv
      · intro h
        constructor
        · intro hb
          have := h 0 (!a) (by simpa using hb)
          simp at this
        · intro k v hv
          exact h (k + 1) v (by simpa using hv)

theorem getD_zipWith_overlayCell :
    ∀ (d : List (Option Cell)) (s : List Cell) (k : Nat), d.length = s.length →
      k < d.length →
      (List.zipWith overlayCell d s).getD k none
        = overlayCell (d.getD k none) (s.getD k false) := by
  intro d
  induction d with
  | nil => intro s k _ hk; simp at hk
  | cons a d ih =>
    intro s k hlen hk
    cases s with
    | nil => simp at hlen
    | cons b s =>
      cases k with
      | zero => rfl
      | succ k =>
        simp only [List.zipWith_cons_cons, List.getD_cons_succ]
        exact ih s k (by simpa using hlen) (by simpa using hk)

theorem getD_map_some : ∀ (l : List Cell) (k : Nat), k < l.length →
    (l.map some).getD k none = some (l.getD k false) := by
  intro l
  induction l with
  | nil => intro k hk; simp at hk
  | cons a l ih =>
    intro k hk
    cases k with
    | zero => rfl
    | succ k => exact ih k (by simpa using hk)

theorem foldlM_overlay_spec : ∀ (ps : List (List Cell)) (init : List (Option Cell)) (L : Nat),
    init.length = L → (∀ p ∈ ps, p.length = L) →
    ∃ m, ps.foldlM overlay init = some m ∧ m.length = L ∧
      ∀ k, k < L →
        m.getD k none = ps.foldl (fun a p => overlayCell a (p.getD k false)) (init.getD k none) := by
  intro ps
  induction ps with
  | nil =>
    intro init L hinit _
    exact ⟨init, by simp [List.foldlM_nil], hinit, fun k _ => by simp⟩
  | cons p ps ih =>
    intro init L hinit hps
    have hp : p.length = L := hps p (List.mem_cons_self _ _)
    have hov : overlay init p = some (List.zipWith overlayCell init p) := by
      unfold overlay
      rw [if_pos (by rw [hinit, hp])]
    have hzlen : (List.zipWith overlayCell init p).length = L := by
      rw [List.length_zipWith, hinit, hp]
      exact Nat.min_self L
    obtain ⟨m, hm, hmlen, hmk⟩ := ih (List.zipWith overlayCell init p) L hzlen
      (fun q hq => hps q (List.mem_cons_of_mem _ hq))
    refine ⟨m, ?_, hmlen, ?_⟩
    · rw [List.foldlM_cons, hov]
      simpa using hm
    · intro k hk
      rw [hmk k hk, List.foldl_cons]
      congr 1
      exact getD_zipWith_overlayCell init p k (by rw [hinit, hp]) (by rw [hinit]; exact hk)

theorem foldl_overlayCell_some : ∀ (qs : List (List Cell)) (a : Option Cell) (v : Cell)
    (k : Nat),
    (qs.foldl (fun a p => overlayCell a (p.getD k false)) a = some v) ↔
      (a = some v ∧ ∀ q ∈ qs, q.getD k false = v) := by
  intro qs
  induction qs with
  | nil => intro a v k; simp
  | cons q qs ih =>
    intro a v k
    rw [List.foldl_cons, ih]
    constructor
    · intro ⟨h1, h2⟩
      have hov : a = some v ∧ q.getD k false = v := by
        unfold overlayCell at h1
        cases a with
        | none => simp at h1
        | some w =>
          simp only at h1
          split at h1
          · rename_i heq
            cases h1
            exact ⟨rfl, heq.symm⟩
          · simp at h1
      refine ⟨hov.1, fun r hr => ?_⟩
      rcases List.mem_cons.mp hr with h | h
      · exact h ▸ hov.2
      · exact h2 r h
    · intro ⟨h1, h2⟩
      have hq : q.getD k false = v := h2 q (List.mem_cons_self _ _)
      refine ⟨?_, fun r hr => h2 r (List.mem_cons_of_mem _ hr)⟩
      rw [h1, hq]
      unfold overlayCell
      simp

theorem sum_perms_spec (ps : List (List Cell)) (L : Nat) (hne : ps ≠ [])
    (hlen : ∀ p ∈ ps, p.length = L) :
    ∃ m, sum_perms ps = some (some m) ∧ m.length = L ∧
      ∀ k, k < L → ∀ v : Cell, (m.getD k none = some v ↔ ∀ p ∈ ps, p.getD k false = v) := by
  cases ps with
  | nil => exact absurd rfl hne
  | cons first rest =>
    have hfirst : first.length = L := hlen first (List.mem_cons_self _ _)
    obtain ⟨m, hm, hmlen, hmk⟩ := foldlM_overlay_spec rest (first.map some) L
      (by rw [List.length_map, hfirst])
      (fun q hq => hlen q (List.mem_cons_of_mem _ hq))
    refine ⟨m, ?_, hmlen, ?_⟩
    · show Option.map some (List.foldlM overlay (List.map some first) rest) = some (some m)
      rw [hm]
      rfl
    · intro k hk v
      rw [hmk k hk, getD_map_some first k (by rw [hfirst]; exact hk), foldl_overlayCell_some]
      constructor
      · intro ⟨h1, h2⟩ p hp
        rcases List.mem_cons.mp hp with h | h
        · exact h ▸ Option.some.inj h1
        · exact h2 p h
      · intro h
        exact ⟨congrArg some (h first (List.mem_cons_self _ _)),
          fun q hq => h q (List.mem_cons_of_mem _ hq)⟩

/-- C6: `sum_perms` (with `overlay`) merges a non-empty sequence of
equal-length patterns into a three-valued line in which a cell holds a
definite value `v` (filled or blank) exactly when every pattern has `v`
at that cell — hence it is `unknown` (`none`) exactly when the patterns
disagree there — and an empty pattern sequence yields no merged line
(the contradiction signal `none` of the Rust `Option` return). -/
theorem claim_C6 :
    sum_perms [] = some none ∧
    ∀ (ps : List (List Cell)) (L : Nat), ps ≠ [] → (∀ p ∈ ps, p.length = L) →
      ∃ m, sum_perms ps = some (some m) ∧ m.length = L ∧
        ∀ k, k < L →
          (∀ v : Cell, (m.getD k none = some v ↔ ∀ p ∈ ps, p.getD k false = v)) ∧
          (m.getD k none = none ↔
            ¬(∀ p ∈ ps, p.getD k false = true) ∧ ¬(∀ p ∈ ps, p.getD k false = false)) := by
  refine ⟨rfl, fun ps L hne hlen => ?_⟩
  obtain ⟨m, hm, hmlen, hmk⟩ := sum_perms_spec ps L hne hlen
  refine ⟨m, hm, hmlen, fun k hk => ⟨hmk k hk, ?_⟩⟩
  constructor
  · intro hnone
    constructor
    · intro hall
      have := (hmk k hk true).mpr hall
      rw [hnone] at this
      cases this
    · intro hall
      have := (hmk k hk false).mpr hall
      rw [hnone] at this
      cases this
  · intro ⟨h1, h2⟩
    cases hcell : m.getD k none with
    | none => rfl
    | some v =>
      cases v with
      | true => exact absurd ((hmk k hk true).mp hcell) h1
      | false => exact absurd ((hmk k hk false).mp hcell) h2

/-- Witness for C6 at the two patterns `[T, F]` and `[T, T]`. -/
theorem claim_C6_witness :
    ([[true, false], [true, true]] : List (List Cell)) ≠ [] ∧
    (∀ p ∈ ([[true, false], [true, true]] : List (List Cell)), p.length = 2) ∧
    ∃ m, sum_perms [[true, false], [true, true]] = some (some m) ∧ m.length = 2 ∧
      ∀ k, k < 2 →
        (∀ v : Cell, (m.getD k none = some v ↔
          ∀ p ∈ ([[true, false], [true, true]] : List (List Cell)), p.getD k false = v)) ∧
        (m.getD k none = none ↔
          ¬(∀ p ∈ ([[true, false], [true, true]] : List (List Cell)), p.getD k false = true) ∧
          ¬(∀ p ∈ ([[true, false], [true, true]] : List (List Cell)), p.getD k false = false)) :=
  ⟨by decide, by decide, claim_C6.2 [[true, false], [true, true]] 2 (by decide) (by decide)⟩

/-! ### `retainMatches` and `brute_progress` -/

theorem retainMatches_total : ∀ (ps : List (List Cell)) (s : List (Option Cell)),
    (∀ p ∈ ps, p.length = s.length) →
    ∃ fs, retainMatches ps s = some fs ∧
      ∀ q, (q ∈ fs ↔ q ∈ ps ∧ perm_matches q s = some true) := by
  intro ps
  induction ps with
  | nil =>
    intro s _
    exact ⟨[], rfl, by simp⟩
  | cons p ps ih =>
    intro s hlen
    obtain ⟨b, hb⟩ := perm_matches_total p s (hlen p (List.mem_cons_self _ _))
    obtain ⟨fs, hfs, hmem⟩ := ih s (fun q hq => hlen q (List.mem_cons_of_mem _ hq))
    refine ⟨if b then p :: fs else fs, ?_, ?_⟩
    · unfold retainMatches
      rw [hb, hfs]
      rfl
    · intro q
      cases b with
      | true =>
        show q ∈ p :: fs ↔ q ∈ p :: ps ∧ perm_matches q s = some true
        constructor
        · intro hq
          rcases List.mem_cons.mp hq with h | h
          · exact ⟨h ▸ List.mem_cons_self _ _, h ▸ hb⟩
          · obtain ⟨h1, h2⟩ := (hmem q).mp h
            exact ⟨List.mem_cons_of_mem _ h1, h2⟩
        · intro ⟨h1, h2⟩
          rcases List.mem_cons.mp h1 with h | h
          · exact h ▸ List.mem_cons_self _ _
          · exact List.mem_cons_of_mem _ ((hmem q).mpr ⟨h, h2⟩)
      | false =>
        show q ∈ fs ↔ q ∈ p :: ps ∧ perm_matches q s = some true
        constructor
        · intro hq
          obtain ⟨h1, h2⟩ := (hmem q).mp hq
          exact ⟨List.mem_cons_of_mem _ h1, h2⟩
        · intro ⟨h1, h2⟩
          rcases List.mem_cons.mp h1 with h | h
          · subst h
            rw [hb] at h2
            cases h2
          · exact (hmem q).mpr ⟨h, h2⟩

/-- C10: whenever `permutations` itself returns (does not panic) on a
hint `H` at the length of the known line `s`, every candidate pattern
compared or merged by `brute_progress` has length `len s`, so the
length-equality assertions inside `perm_matches` and `overlay` never
fire (no modelled panic), and a merged line returned by `brute_progress`
has length exactly `len s`. -/
theorem claim_C10 (H : List Nat) (s : List (Option Cell)) (ps : List (List Cell))
    (h : permutations H s.length = some ps) :
    brute_progress H s ≠ none ∧
      ∀ m, brute_progress H s = some (some m) → m.length = s.length := by
  have hlen : ∀ p ∈ ps, p.length = s.length := perm_length H s.length ps h
  obtain ⟨fs, hfs, hmem⟩ := retainMatches_total ps s hlen
  have hbp : brute_progress H s = sum_perms fs := by
    unfold brute_progress
    rw [h]
    show Option.bind (retainMatches ps s) (fun fs => sum_perms fs) = sum_perms fs
    rw [hfs]
    rfl
  cases hfscases : fs with
  | nil =>
    rw [hbp, hfscases]
    exact ⟨by simp [sum_perms], fun m hm => by simp [sum_perms] at hm⟩
  | cons q qs =>
    have hne : fs ≠ [] := by rw [hfscases]; simp
    obtain ⟨m, hm, hmlen, _⟩ := sum_perms_spec fs s.length hne
      (fun q hq => hlen q ((hmem q).mp hq).1)
    rw [hfscases] at hm
    rw [hbp, hfscases, hm]
    exact ⟨by simp, fun m2 hm2 => by cases hm2; exact hmlen⟩

/-- Witness for C10 at the hint `[1]` and line `[unknown, filled]`. -/
theorem claim_C10_witness :
    permutations [1] 2 = some [[true, false], [false, true]] ∧
    brute_progress [1] [none, some true] ≠ none ∧
    (∀ m, brute_progress [1] [none, some true] = some (some m) → m.length = 2) :=
  ⟨by decide,
    (claim_C10 [1] [none, some true] [[true, false], [false, true]] (by decide)).1,
    (claim_C10 [1] [none, some true] [[true, false], [false, true]] (by decide)).2⟩

theorem list_ext_getD {α : Type} (d : α) : ∀ (l₁ l₂ : List α), l₁.length = l₂.length →
    (∀ k, k < l₁.length → l₁.getD k d = l₂.getD k d) → l₁ = l₂ := by
  intro l₁
  induction l₁ with
  | nil =>
    intro l₂ h _
    exact (List.eq_nil_of_length_eq_zero h.symm).symm
  | cons a l ih =>
    intro l₂ hlen hk
    cases l₂ with
    | nil => simp at hlen
    | cons b l₂ =>
      have h0 := hk 0 (by simp)
      simp only [List.getD_cons_zero] at h0
      subst h0
      congr 1
      refine ih l₂ (by simpa using hlen) (fun k hk2 => ?_)
      have := hk (k + 1) (by simpa using hk2)
      simpa using this

/-- C9 (counterexample): the line `[filled, filled]` is fully determined
(no unknown cell), yet `brute_progress` with hint `[1]` reports a
contradiction (`some none`, the Rust `None` return) instead of returning
the line unchanged: no candidate pattern of `[1]` matches it. -/
theorem claim_C9_counterexample :
    (∀ c ∈ ([some true, some true] : List (Option Cell)), c.isSome = true) ∧
    brute_progress [1] [some true, some true] = some none := by decide

/-- C9 (amended): re-running `brute_progress` on a fully determined line
changes nothing and reports no contradiction, provided at least one
candidate pattern of the hint matches the line (otherwise — see the
counterexample — it reports a contradiction): the merged result is
exactly the input line. -/
theorem claim_C9 (H : List Nat) (s : List (Option Cell))
    (hdet : ∀ c ∈ s, c.isSome = true)
    (ps : List (List Cell)) (hps : permutations H s.length = some ps)
    (p : List Cell) (hp : p ∈ ps) (hpm : perm_matches p s = some true) :
    brute_progress H s = some (some s) := by
  have hlen := perm_length H s.length ps hps
  obtain ⟨fs, hfs, hmem⟩ := retainMatches_total ps s hlen
  have hpfs : p ∈ fs := (hmem p).mpr ⟨hp, hpm⟩
  have hne : fs ≠ [] := fun h => by rw [h] at hpfs; cases hpfs
  have hflen : ∀ q ∈ fs, q.length = s.length := fun q hq => hlen q ((hmem q).mp hq).1
  obtain ⟨m, hm, hmlen, hmk⟩ := sum_perms_spec fs s.length hne hflen
  have hms : m = s := by
    apply list_ext_getD none
    · exact hmlen
    · intro k hk
      have hks : k < s.length := by rw [← hmlen]; exact hk
      have hsome : (s.getD k none).isSome = true := by
        have hmemk : s.getD k none ∈ s := by
          rw [List.getD_eq_getElem s none hks]
          exact List.getElem_mem hks
        exact hdet _ hmemk
      obtain ⟨v, hv⟩ := Option.isSome_iff_exists.mp hsome
      rw [hv]
      exact (hmk k hks v).mpr fun q hq =>
        (perm_matches_true_iff q s (hflen q hq)).mp ((hmem q).mp hq).2 k v hv
  unfold brute_progress
  rw [hps]
  show Option.bind (retainMatches ps s) (fun fs => sum_perms fs) = some (some s)
  rw [hfs]
  show sum_perms fs = some (some s)
  rw [hm, hms]

/-- Witness for C9 at hint `[1]` and the determined line
`[filled, blank]`. -/
theorem claim_C9_witness :
    brute_progress [1] [some true, some false] = some (some [some true, some false]) :=
  claim_C9 [1] [some true, some false] (by decide) [[true, false], [false, true]]
    (by decide) [true, false] (by decide) (by decide)

/-! ### Board accessor claims -/

/-- C5: `row_checked` indeed returns the row exactly when `i < height`,
but `row_checked_mut` — contrary to the claim — checks the row index
against the grid's *width*: on a 1×2 grid (width 1, height 2) the valid
row index 1 is rejected by `row_checked_mut` while `row_checked` accepts
it.  The spec's contract (row indices checked against the height) is the
evident intent — `set_row` calls `row_checked_mut(i).unwrap()` with row
indices `i < height` and the unchecked fast path is only memory-safe for
`i < height` — so this is a bug in `row_checked_mut`. -/
theorem claim_C5 :
    (∀ (b : Board (Option Cell)) (i : Nat), (row_checked b i).isSome ↔ i < b.height) ∧
    (∀ (b : Board (Option Cell)) (i : Nat), (row_checked_mut b i).isSome ↔ i < b.width) ∧
    (row_checked_mut (⟨1, 2, [none, none]⟩ : Board (Option Cell)) 1 = none ∧
      1 < (⟨1, 2, [none, none]⟩ : Board (Option Cell)).height ∧
      row_checked (⟨1, 2, [none, none]⟩ : Board (Option Cell)) 1 ≠ none) := by
  refine ⟨fun b i => ?_, fun b i => ?_, by decide⟩
  · unfold row_checked
    split <;> rename_i h <;> simp [h]
  · unfold row_checked_mut
    split <;> rename_i h <;> simp [h]

/-- C1: on the puzzle with row hints `[1], [2]` and column hints
`[2], [2]` — well-formed, but unsolvable — `find_solution` returns the
fully filled 2×2 grid as a "solution": its first row `[T, T]` has
run-length sequence `[2]`, not the row hint `[1]`.  The claim (every
returned grid's rows and columns match the hints — the stated purpose of
the solver) is the intent; the code omits re-validating rows against
their hints after the column pass fills cells, so this is a code bug. -/
theorem claim_C1 :
    (Picross.new [[1], [2]] [[2], [2]]).map (fun st =>
        match find_solution 3 st with
        | .found sol _ => some sol
        | _ => none)
      = some (some ⟨2, 2, [true, true, true, true]⟩) ∧
    row_checked (⟨2, 2, [true, true, true, true]⟩ : Board Cell) 0 = some [true, true] ∧
    runLengths [true, true] = [2] ∧ ([2] : List Nat) ≠ [1] := by decide

/-! ### Solver state-machine claims -/

theorem findIdx?_isNone_eq_none : ∀ (l : List (Option Cell)) (s : Nat),
    l.all (·.isSome) = true → List.findIdx? (·.isNone) l s = none := by
  intro l
  induction l with
  | nil => intro s _; rfl
  | cons x xs ih =>
    intro s hall
    rw [List.findIdx?_cons]
    have hx : x.isSome = true := by
      have := List.all_eq_true.mp hall x (List.mem_cons_self _ _)
      simpa using this
    have hnx : x.isNone = false := by
      cases x with
      | none => cases hx
      | some v => rfl
    rw [if_neg (by rw [hnx]; simp)]
    exact ih (s + 1) (by
      rw [List.all_eq_true] at hall ⊢
      exact fun y hy => hall y (List.mem_cons_of_mem _ hy))

theorem findIdx?_isNone_spec : ∀ (l : List (Option Cell)) (s i : Nat),
    List.findIdx? (·.isNone) l s = some i →
    s ≤ i ∧ i - s < l.length ∧ l.getD (i - s) (some false) = none ∧
      ∀ j, j < i - s → (l.getD j none).isSome = true := by
  intro l
  induction l with
  | nil => intro s i h; cases h
  | cons x xs ih =>
    intro s i h
    rw [List.findIdx?_cons] at h
    split at h
    · rename_i hpx
      cases h
      have hx : x = none := by
        cases x with
        | none => rfl
        | some v => cases hpx
      refine ⟨Nat.le_refl s, ?_, ?_, ?_⟩
      · simp [Nat.sub_self]
      · rw [Nat.sub_self]
        simpa using hx
      · intro j hj
        rw [Nat.sub_self] at hj
        cases hj
    · rename_i hpx
      have hx : x.isSome = true := by
        cases x with
        | none => exact absurd rfl hpx
        | some v => rfl
      obtain ⟨h1, h2, h3, h4⟩ := ih (s + 1) i h
      have he : i - s = (i - (s + 1)) + 1 := by omega
      refine ⟨by omega, ?_, ?_, ?_⟩
      · simp only [List.length_cons]
        omega
      · rw [he]
        simpa using h3
      · intro j hj
        cases j with
        | zero => simpa using hx
        | succ j =>
          rw [List.getD_cons_succ]
          exact h4 j (by omega)

/-- C3 (counterexample): the state reached after `find_solution` returns
the unique solution of the 1×1 puzzle with hints `[1]`/`[1]` — concretely
the solved board `[filled]` with its surviving candidate sets and an
empty backtrack stack.  On the next `find_solution` call the full
iteration changes no row and no column and every cell is determined, yet
the solver does not reach a `Solved` return: it attempts to pop the
(empty) backtrack stack and returns no solution (`noMore`). -/
theorem claim_C3_counterexample :
    (Picross.new [[1]] [[1]]).map (fun st0 =>
        match find_solution 5 st0 with
        | .found _ st1 => some st1
        | _ => none)
      = some (some ⟨⟨1, 1, [some true]⟩, [[[true]]], [[[true]]], [], 0⟩) ∧
    row_pass true (⟨1, 1, [some true]⟩ : GuessBoard) 0 [[[true]]]
      = .ok ⟨1, 1, [some true]⟩ [[[true]]] false ∧
    col_pass true (⟨1, 1, [some true]⟩ : GuessBoard) 0 [[[true]]]
      = .ok ⟨1, 1, [some true]⟩ [[[true]]] false ∧
    (⟨1, 1, [some true]⟩ : GuessBoard).data.all (·.isSome) = true ∧
    step true ⟨⟨1, 1, [some true]⟩, [[[true]]], [[[true]]], [], 0⟩ = .noMore ∧
    find_solution 5 ⟨⟨1, 1, [some true]⟩, [[[true]]], [[[true]]], [], 0⟩ = .noMore := by
  decide

/-- C3 (amended): when one full iteration (row passes then column
passes) changes no row and no column and every cell is determined, the
solver does **not** return the board as a solution: it pops the
backtrack stack and continues from the restored snapshot (or returns
"no solution" when the stack is empty) — this is how repeated calls
enumerate further solutions.  A fully-determined grid is materialized
and returned as a solution only at the end of an iteration that did
change some row or column. -/
theorem claim_C3 :
    (∀ (fr : Bool) (st : Picross) (b1 : GuessBoard) (rp1 : SectionPerms)
        (b2 : GuessBoard) (cp1 : SectionPerms),
      row_pass fr st.board 0 st.rowsPerms = .ok b1 rp1 false →
      col_pass fr b1 0 st.colsPerms = .ok b2 cp1 false →
      b2.data.all (·.isSome) = true →
      step fr st = handle_contra ⟨b2, rp1, cp1, st.backtrack, st.numBacktracks⟩ false) ∧
    (∀ (fr : Bool) (st : Picross) (b1 : GuessBoard) (rp1 : SectionPerms) (prog1 : Bool)
        (b2 : GuessBoard) (cp1 : SectionPerms) (prog2 : Bool) (sol : Board Cell),
      row_pass fr st.board 0 st.rowsPerms = .ok b1 rp1 prog1 →
      col_pass fr b1 0 st.colsPerms = .ok b2 cp1 prog2 →
      (prog1 || prog2) = true →
      b2.data.all (·.isSome) = true →
      materialize b2 = some sol →
      step fr st = .found sol ⟨b2, rp1, cp1, st.backtrack, st.numBacktracks⟩) := by
  constructor
  · intro fr st b1 rp1 b2 cp1 hrow hcol hall
    have hidx : List.findIdx? (·.isNone) b2.data = none :=
      findIdx?_isNone_eq_none b2.data 0 hall
    simp only [step, hrow, hcol, Bool.or_self, Bool.false_eq_true, if_false, hidx]
  · intro fr st b1 rp1 prog1 b2 cp1 prog2 sol hrow hcol hprog hall hmat
    simp only [step, hrow, hcol, hprog, if_true, hall, hmat]

/-- Witness for C3: part one at the solved 1×1 state (empty stack, so the
solver reports no further solution), part two at the fresh 1×1 puzzle
state, whose first iteration makes progress and returns the solution. -/
theorem claim_C3_witness :
    step true ⟨⟨1, 1, [some true]⟩, [[[true]]], [[[true]]], [], 0⟩
      = handle_contra ⟨⟨1, 1, [some true]⟩, [[[true]]], [[[true]]], [], 0⟩ false ∧
    step true ⟨⟨1, 1, [none]⟩, [[[true]]], [[[true]]], [], 0⟩
      = .found ⟨1, 1, [true]⟩ ⟨⟨1, 1, [some true]⟩, [[[true]]], [[[true]]], [], 0⟩ :=
  ⟨claim_C3.1 true ⟨⟨1, 1, [some true]⟩, [[[true]]], [[[true]]], [], 0⟩
      ⟨1, 1, [some true]⟩ [[[true]]] ⟨1, 1, [some true]⟩ [[[true]]]
      (by decide) (by decide) (by decide),
    claim_C3.2 true ⟨⟨1, 1, [none]⟩, [[[true]]], [[[true]]], [], 0⟩
      ⟨1, 1, [some true]⟩ [[[true]]] true ⟨1, 1, [some true]⟩ [[[true]]] false
      ⟨1, 1, [true]⟩ (by decide) (by decide) (by decide) (by decide) (by decide)⟩

/-- C7: when a full iteration makes no progress (no row and no column
changed) and some cell is still unknown, the solver picks the lowest
row-major index `i` holding an unknown cell (`findIdx?`, shown lowest by
the conjuncts about `i`), clones the current search state — board plus
row and column candidate sets — with that cell forced to blank, pushes
the clone onto the backtrack stack, forces the cell to filled in the
live state, bumps the branch counter, and resumes propagation on the
live (filled) branch. -/
theorem claim_C7 (fr : Bool) (st : Picross) (b1 : GuessBoard) (rp1 : SectionPerms)
    (b2 : GuessBoard) (cp1 : SectionPerms) (i : Nat)
    (hrow : row_pass fr st.board 0 st.rowsPerms = .ok b1 rp1 false)
    (hcol : col_pass fr b1 0 st.colsPerms = .ok b2 cp1 false)
    (hidx : List.findIdx? (·.isNone) b2.data = some i) :
    step fr st = .next false ⟨setCellAt b2 i (some true), rp1, cp1,
        (setCellAt b2 i (some false), rp1, cp1) :: st.backtrack,
        st.numBacktracks + 1⟩ ∧
      b2.data.getD i (some false) = none ∧
      ∀ j, j < i → (b2.data.getD j none).isSome = true := by
  obtain ⟨h1, h2, h3, h4⟩ := findIdx?_isNone_spec b2.data 0 i hidx
  refine ⟨?_, by simpa using h3, fun j hj => h4 j (by omega)⟩
  simp only [step, hrow, hcol, Bool.or_self, Bool.false_eq_true, if_false, hidx]

/-- Witness for C7 at the 2×2 puzzle with hints `[1]`/`[1]` on all rows
and columns: the first iteration determines nothing, so the solver
branches at index 0. -/
theorem claim_C7_witness :
    step true ⟨⟨2, 2, [none, none, none, none]⟩,
        [[[true, false], [false, true]], [[true, false], [false, true]]],
        [[[true, false], [false, true]], [[true, false], [false, true]]], [], 0⟩
      = .next false ⟨setCellAt ⟨2, 2, [none, none, none, none]⟩ 0 (some true),
          [[[true, false], [false, true]], [[true, false], [false, true]]],
          [[[true, false], [false, true]], [[true, false], [false, true]]],
          [(setCellAt ⟨2, 2, [none, none, none, none]⟩ 0 (some false),
            [[[true, false], [false, true]], [[true, false], [false, true]]],
            [[[true, false], [false, true]], [[true, false], [false, true]]])], 1⟩ ∧
      (⟨2, 2, [none, none, none, none]⟩ : GuessBoard).data.getD 0 (some false) = none ∧
      ∀ j, j < 0 →
        ((⟨2, 2, [none, none, none, none]⟩ : GuessBoard).data.getD j none).isSome = true :=
  claim_C7 true ⟨⟨2, 2, [none, none, none, none]⟩,
      [[[true, false], [false, true]], [[true, false], [false, true]]],
      [[[true, false], [false, true]], [[true, false], [false, true]]], [], 0⟩
    ⟨2, 2, [none, none, none, none]⟩
    [[[true, false], [false, true]], [[true, false], [false, true]]]
    ⟨2, 2, [none, none, none, none]⟩
    [[[true, false], [false, true]], [[true, false], [false, true]]]
    0 (by decide) (by decide) (by decide)

/-! ### Generic `getD` lemmas -/

theorem getD_append_left_of_lt {α : Type} :
    ∀ (l₁ l₂ : List α) (k : Nat) (d : α), k < l₁.length →
      (l₁ ++ l₂).getD k d = l₁.getD k d := by
  intro l₁
  induction l₁ with
  | nil => intro l₂ k d hk; simp at hk
  | cons a l ih =>
    intro l₂ k d hk
    cases k with
    | zero => rfl
    | succ k => exact ih l₂ k d (by simpa using hk)

theorem getD_append_right_of_le {α : Type} :
    ∀ (l₁ l₂ : List α) (k : Nat) (d : α), l₁.length ≤ k →
      (l₁ ++ l₂).getD k d = l₂.getD (k - l₁.length) d := by
  intro l₁
  induction l₁ with
  | nil => intro l₂ k d _; simp
  | cons a l ih =>
    intro l₂ k d hk
    cases k with
    | zero => simp at hk
    | succ k =>
      simp only [List.cons_append, List.getD_cons_succ, List.length_cons]
      rw [ih l₂ k d (by simpa using hk)]
      congr 1
      omega

theorem getD_take_of_lt {α : Type} :
    ∀ (l : List α) (m k : Nat) (d : α), k < m → (l.take m).getD k d = l.getD k d := by
  intro l
  induction l with
  | nil => intro m k d _; simp
  | cons a l ih =>
    intro m k d hk
    cases m with
    | zero => cases hk
    | succ m =>
      cases k with
      | zero => rfl
      | succ k => exact ih m k d (by omega)

theorem getD_drop_add {α : Type} :
    ∀ (l : List α) (m k : Nat) (d : α), (l.drop m).getD k d = l.getD (m + k) d := by
  intro l
  induction l with
  | nil => intro m k d; simp
  | cons a l ih =>
    intro m k d
    cases m with
    | zero => simp
    | succ m =>
      simp only [List.drop_succ_cons]
      rw [ih m k d]
      have : m + 1 + k = (m + k) + 1 := by omega
      rw [this]
      rfl

theorem getD_set_self {α : Type} :
    ∀ (l : List α) (i : Nat) (a : α) (d : α), i < l.length → (l.set i a).getD i d = a := by
  intro l
  induction l with
  | nil => intro i a d hi; simp at hi
  | cons x l ih =>
    intro i a d hi
    cases i with
    | zero => rfl
    | succ i => exact ih i a d (by simpa using hi)

theorem getD_set_ne {α : Type} :
    ∀ (l : List α) (i j : Nat) (a : α) (d : α), i ≠ j →
      (l.set i a).getD j d = l.getD j d := by
  intro l
  induction l with
  | nil => intro i j a d _; simp
  | cons x l ih =>
    intro i j a d hne
    cases i with
    | zero =>
      cases j with
      | zero => exact absurd rfl hne
      | succ j => rfl
    | succ i =>
      cases j with
      | zero => rfl
      | succ j => exact ih i j a d (by omega)

theorem unwrapLine_spec : ∀ (r : List (Option Cell)) (r1 : List Cell),
    unwrapLine r = some r1 →
    r1.length = r.length ∧ ∀ k v, r.getD k none = some v → r1.getD k false = v := by
  intro r
  induction r with
  | nil =>
    intro r1 h
    cases h
    exact ⟨rfl, fun k v hk => by simp at hk⟩
  | cons a r ih =>
    intro r1 h
    cases a with
    | none => cases h
    | some v0 =>
      unfold unwrapLine at h
      cases hrest : unwrapLine r with
      | none => rw [hrest] at h; cases h
      | some rr =>
        rw [hrest] at h
        cases h
        obtain ⟨hlen, hval⟩ := ih rr hrest
        refine ⟨by simpa using hlen, fun k v hk => ?_⟩
        cases k with
        | zero =>
          simp only [List.getD_cons_zero] at hk ⊢
          exact Option.some.inj hk
        | succ k =>
          simp only [List.getD_cons_succ] at hk ⊢
          exact hval k v hk

/-! ### Extension and incompatibility of partial boards -/

/-- `d2` refines `d1`: every determined cell of `d1` is determined with
the same value in `d2`. -/
def dataExt (d1 d2 : List (Option Cell)) : Prop :=
  ∀ j v, d1.getD j none = some v → d2.getD j none = some v

/-- Two partial boards contradict each other at some determined cell. -/
def dataIncompat (d1 d2 : List (Option Cell)) : Prop :=
  ∃ j v, d1.getD j none = some v ∧ d2.getD j none = some (!v)

/-- A partial board contradicts a completed solution at some cell the
partial board has determined. -/
def solIncompat (d : List (Option Cell)) (s : List Cell) : Prop :=
  ∃ j v, d.getD j none = some v ∧ j < s.length ∧ s.getD j false = !v

theorem dataExt_refl (d : List (Option Cell)) : dataExt d d := fun _ _ h => h

theorem dataExt_trans {d1 d2 d3 : List (Option Cell)}
    (h1 : dataExt d1 d2) (h2 : dataExt d2 d3) : dataExt d1 d3 :=
  fun j v h => h2 j v (h1 j v h)

theorem dataIncompat_symm {d1 d2 : List (Option Cell)} (h : dataIncompat d1 d2) :
    dataIncompat d2 d1 := by
  obtain ⟨j, v, h1, h2⟩ := h
  exact ⟨j, !v, h2, by simpa using h1⟩

theorem dataIncompat_ext_right {d1 d2 d2' : List (Option Cell)}
    (h : dataIncompat d1 d2) (he : dataExt d2 d2') : dataIncompat d1 d2' := by
  obtain ⟨j, v, h1, h2⟩ := h
  exact ⟨j, v, h1, he j (!v) h2⟩

theorem solIncompat_ext {d d' : List (Option Cell)} {s : List Cell}
    (h : solIncompat d s) (he : dataExt d d') : solIncompat d' s := by
  obtain ⟨j, v, h1, h2, h3⟩ := h
  exact ⟨j, v, he j v h1, h2, h3⟩

theorem getD_some_lt_length {d : List (Option Cell)} {j : Nat} {v : Cell}
    (h : d.getD j none = some v) : j < d.length := by
  by_contra hge
  rw [List.getD_eq_default] at h
  · cases h
  · omega

/-! ### `set_row` / `set_col` characterizations -/

theorem set_row_dims {T : Type} {b b' : Board T} {i : Nat} {v : List T}
    (h : set_row b i v = some b') :
    b'.width = b.width ∧ b'.height = b.height ∧ b'.data.length = b.data.length ∧
    i < b.width ∧ b.width * i + b.width ≤ b.data.length ∧ v.length = b.width ∧
    b'.data = b.data.take (b.width * i) ++ v ++ b.data.drop (b.width * i + b.width) := by
  unfold set_row at h
  split at h
  · split at h
    · split at h
      · rename_i h1 h2 h3
        cases h
        refine ⟨rfl, rfl, ?_, h1, h2, h3, rfl⟩
        simp only [List.length_append, List.length_take, List.length_drop]
        omega
      · cases h
    · cases h
  · cases h

theorem splice_ext (dat v : List (Option Cell)) (N W : Nat)
    (hin : N + W ≤ dat.length) (hvlen : v.length = W)
    (hv : ∀ k u, ((dat.drop N).take W).getD k none = some u → v.getD k none = some u) :
    dataExt dat (dat.take N ++ v ++ dat.drop (N + W)) := by
  intro j u hju
  have hjlen := getD_some_lt_length hju
  have htlen : (dat.take N).length = N := by
    rw [List.length_take]
    omega
  have hl1 : (dat.take N ++ v).length = N + W := by
    rw [List.length_append, htlen, hvlen]
  rcases Nat.lt_or_ge j (N + W) with hj2 | hj2
  · rw [getD_append_left_of_lt _ _ _ _ (by omega)]
    rcases Nat.lt_or_ge j N with hj1 | hj1
    · rw [getD_append_left_of_lt _ _ _ _ (by omega), getD_take_of_lt _ _ _ _ hj1]
      exact hju
    · rw [getD_append_right_of_le _ _ _ _ (by omega), htlen]
      apply hv
      rw [getD_take_of_lt _ _ _ _ (by omega), getD_drop_add]
      have harith : N + (j - N) = j := by omega
      rw [harith]
      exact hju
  · rw [getD_append_right_of_le _ _ _ _ (by omega), hl1, getD_drop_add]
    have harith : N + W + (j - (N + W)) = j := by omega
    rw [harith]
    exact hju

theorem set_row_ext {b b' : GuessBoard} {i : Nat} {v : List (Option Cell)}
    (h : set_row b i v = some b')
    (hv : ∀ k u, ((b.data.drop (b.width * i)).take b.width).getD k none = some u →
        v.getD k none = some u) :
    dataExt b.data b'.data := by
  obtain ⟨_, _, _, hiw, hin, hvlen, hdata⟩ := set_row_dims h
  rw [hdata]
  exact splice_ext b.data v (b.width * i) b.width hin hvlen hv

theorem foldl_set_length {T : Type} (x w : Nat) :
    ∀ (ps : List (Nat × T)) (dat : List T),
      (ps.foldl (fun d p => d.set (x + w * p.1) p.2) dat).length = dat.length := by
  intro ps
  induction ps with
  | nil => intro dat; rfl
  | cons p ps ih =>
    intro dat
    rw [List.foldl_cons, ih, List.length_set]

theorem foldl_set_spec {T : Type} (x w : Nat) (dflt : T) (hw : 1 ≤ w) :
    ∀ (v : List T) (n : Nat) (dat : List T),
      (∀ j, (∀ m, m < v.length → j ≠ x + w * (n + m)) →
        ((List.enumFrom n v).foldl (fun d p => d.set (x + w * p.1) p.2) dat).getD j dflt
          = dat.getD j dflt) ∧
      (∀ m, m < v.length → x + w * (n + m) < dat.length →
        ((List.enumFrom n v).foldl (fun d p => d.set (x + w * p.1) p.2) dat).getD
            (x + w * (n + m)) dflt = v.getD m dflt) := by
  intro v
  induction v with
  | nil =>
    intro n dat
    exact ⟨fun j _ => rfl, fun m hm => by simp at hm⟩
  | cons a v ih =>
    intro n dat
    constructor
    · intro j hj
      simp only [List.enumFrom_cons, List.foldl_cons]
      rw [(ih (n + 1) (dat.set (x + w * n) a)).1 j (fun m hm => by
        have := hj (m + 1) (by simpa using Nat.succ_lt_succ hm)
        have harith : n + 1 + m = n + (m + 1) := by omega
        rw [harith]
        exact this)]
      exact getD_set_ne _ _ _ _ _ (fun hc => hj 0 (by simp) (by rw [Nat.add_zero]; omega))
    · intro m hm hlt
      simp only [List.enumFrom_cons, List.foldl_cons]
      cases m with
      | zero =>
        simp only [Nat.add_zero] at hlt ⊢
        rw [(ih (n + 1) (dat.set (x + w * n) a)).1 (x + w * n) (fun m' hm' => by
          intro hc
          have h1 : w * (n + 1) ≤ w * (n + 1 + m') :=
            Nat.mul_le_mul_left w (by omega)
          have h2 : w * (n + 1) = w * n + w := by ring
          omega)]
        rw [getD_set_self _ _ _ _ hlt]
        rfl
      | succ m =>
        have harith : n + (m + 1) = n + 1 + m := by omega
        rw [harith]
        rw [(ih (n + 1) (dat.set (x + w * n) a)).2 m (by simpa using hm)
          (by rw [List.length_set]; rw [← harith]; exact hlt)]
        rfl

theorem set_col_dims {T : Type} {b b' : Board T} {x : Nat} {v : List T}
    (h : set_col b x v = some b') :
    b'.width = b.width ∧ b'.height = b.height ∧ b'.data.length = b.data.length ∧
    x < b.width ∧ v.length = b.height ∧
    (b.height = 0 ∨ x + b.width * (b.height - 1) < b.data.length) ∧
    b'.data = v.enum.foldl (fun d p => d.set (x + b.width * p.1) p.2) b.data := by
  unfold set_col at h
  split at h
  · split at h
    · split at h
      · rename_i h1 h2 h3
        cases h
        refine ⟨rfl, rfl, ?_, h1, h2, h3, rfl⟩
        exact foldl_set_length x b.width v.enum b.data
      · cases h
    · cases h
  · cases h

theorem set_col_ext {b b' : GuessBoard} {x : Nat} {v : List (Option Cell)}
    (h : set_col b x v = some b')
    (hv : ∀ y u, y < b.height → b.data.getD (x + b.width * y) none = some u →
        v.getD y none = some u) :
    dataExt b.data b'.data := by
  obtain ⟨_, _, _, hxw, hvlen, hguard, hdata⟩ := set_col_dims h
  have hw : 1 ≤ b.width := by omega
  intro j u hju
  have hjlen := getD_some_lt_length hju
  rw [hdata]
  have henum : v.enum = List.enumFrom 0 v := rfl
  rw [henum]
  by_cases hcase : ∃ m, m < v.length ∧ j = x + b.width * m
  · obtain ⟨m, hm, rfl⟩ := hcase
    have hmh : m < b.height := by omega
    have hpos : x + b.width * (0 + m) < b.data.length := by
      have hh0 : b.height ≠ 0 := by omega
      have hle : b.width * m ≤ b.width * (b.height - 1) :=
        Nat.mul_le_mul_left _ (by omega)
      simp only [Nat.zero_add]
      omega
    have h3 := (foldl_set_spec x b.width none hw v 0 b.data).2 m hm hpos
    simp only [Nat.zero_add] at h3
    rw [h3]
    exact hv m u hmh hju
  · rw [(foldl_set_spec x b.width none hw v 0 b.data).1 j (fun m hm hc => by
      exact hcase ⟨m, hm, by simpa using hc⟩)]
    exact hju

/-! ### Pass-level lemmas -/

theorem perm_matches_some_length {x : List Cell} {y : List (Option Cell)} {b : Bool}
    (h : perm_matches x y = some b) : x.length = y.length := by
  unfold perm_matches at h
  split at h
  · assumption
  · cases h

theorem retainMatches_sound : ∀ (ps : List (List Cell)) (s : List (Option Cell))
    (fs : List (List Cell)), retainMatches ps s = some fs →
    ∀ q ∈ fs, q ∈ ps ∧ perm_matches q s = some true := by
  intro ps
  induction ps with
  | nil =>
    intro s fs h q hq
    cases h
    cases hq
  | cons p ps ih =>
    intro s fs h q hq
    unfold retainMatches at h
    cases hb : perm_matches p s with
    | none => rw [hb] at h; cases h
    | some b =>
      rw [hb] at h
      cases hrest : retainMatches ps s with
      | none => rw [hrest] at h; cases h
      | some fs1 =>
        rw [hrest] at h
        simp only [Option.some_bind, Option.pure_def] at h
        cases h
        cases b with
        | true =>
          rcases List.mem_cons.mp hq with h1 | h1
          · exact ⟨h1 ▸ List.mem_cons_self _ _, h1 ▸ hb⟩
          · obtain ⟨h2, h3⟩ := ih s fs1 hrest q h1
            exact ⟨List.mem_cons_of_mem _ h2, h3⟩
        | false =>
          obtain ⟨h2, h3⟩ := ih s fs1 hrest q hq
          exact ⟨List.mem_cons_of_mem _ h2, h3⟩

theorem sum_perms_ext (s : List (Option Cell)) (fs : List (List Cell))
    (hm : ∀ q ∈ fs, perm_matches q s = some true)
    (m : List (Option Cell)) (hsp : sum_perms fs = some (some m)) :
    m.length = s.length ∧ ∀ k u, s.getD k none = some u → m.getD k none = some u := by
  cases fs with
  | nil => simp [sum_perms] at hsp
  | cons q qs =>
    have hlen : ∀ p ∈ q :: qs, p.length = s.length :=
      fun p hp => perm_matches_some_length (hm p hp)
    obtain ⟨m2, hm2, hm2len, hm2k⟩ := sum_perms_spec (q :: qs) s.length (by simp) hlen
    rw [hsp] at hm2
    have hmm : m2 = m := by
      cases hm2
      rfl
    subst hmm
    refine ⟨hm2len, fun k u hk => ?_⟩
    have hk2 : k < s.length := getD_some_lt_length hk
    exact (hm2k k hk2 u).mpr fun p hp =>
      (perm_matches_true_iff p s (hlen p hp)).mp (hm p hp) k u hk

theorem sum_perms_determined_eq (s : List (Option Cell)) (fs : List (List Cell))
    (hdet : ∀ c ∈ s, c.isSome = true)
    (hm : ∀ q ∈ fs, perm_matches q s = some true)
    (m : List (Option Cell)) (hsp : sum_perms fs = some (some m)) : m = s := by
  obtain ⟨hlen, hext⟩ := sum_perms_ext s fs hm m hsp
  apply list_ext_getD none m s hlen
  intro k hk
  have hks : k < s.length := by omega
  have hsome : (s.getD k none).isSome = true := by
    have hmemk : s.getD k none ∈ s := by
      rw [List.getD_eq_getElem s none hks]
      exact List.getElem_mem hks
    exact hdet _ hmemk
  obtain ⟨v, hv⟩ := Option.isSome_iff_exists.mp hsome
  rw [hv, hext k v hv]

theorem getD_map_range {α : Type} (f : Nat → α) (h y : Nat) (d : α) (hy : y < h) :
    ((List.range h).map f).getD y d = f y := by
  have hlen : y < ((List.range h).map f).length := by
    rw [List.length_map, List.length_range]
    exact hy
  rw [List.getD_eq_getElem _ d hlen, List.getElem_map, List.getElem_range]

theorem row_pass_ext : ∀ (permss : SectionPerms) (fr : Bool) (b : GuessBoard) (y : Nat)
    (b' : GuessBoard) (p' : SectionPerms) (pr : Bool),
    row_pass fr b y permss = .ok b' p' pr →
    dataExt b.data b'.data ∧ b'.width = b.width ∧ b'.height = b.height ∧
      b'.data.length = b.data.length := by
  intro permss
  induction permss with
  | nil =>
    intro fr b y b' p' pr h
    cases h
    exact ⟨dataExt_refl _, rfl, rfl, rfl⟩
  | cons perms rest ih =>
    intro fr b y b' p' pr h
    rw [row_pass] at h
    split at h
    · cases h
    · rename_i row hrc
      split at h
      · cases h
      · rename_i perms1 hrm
        have hmatch := retainMatches_sound perms row perms1 hrm
        split at h
        · split at h
          · cases h
          · cases h
          · rename_i newRow hsp
            have hext := sum_perms_ext row perms1 (fun q hq => (hmatch q hq).2) newRow hsp
            split at h
            · split at h
              · cases h
              · rename_i b2 hset
                have hrow_eq : row = (b.data.drop (b.width * y)).take b.width := by
                  unfold row_checked at hrc
                  split at hrc
                  · cases hrc
                    rfl
                  · cases hrc
                have hext1 : dataExt b.data b2.data := by
                  apply set_row_ext hset
                  intro k u hk
                  apply hext.2
                  rw [hrow_eq]
                  exact hk
                obtain ⟨hd1, hd2, hd3, hd4, hd5, hd6, hd7⟩ := set_row_dims hset
                cases hrec : row_pass fr b2 (y + 1) rest with
                | panic =>
                  rw [hrec] at h
                  have h2 : PassRes.panic = PassRes.ok b' p' pr := h
                  cases h2
                | contra =>
                  rw [hrec] at h
                  have h2 : PassRes.contra = PassRes.ok b' p' pr := h
                  cases h2
                | ok b3 rest1 prog =>
                  rw [hrec] at h
                  have h2 : PassRes.ok b3 (perms1 :: rest1) (true || prog)
                      = PassRes.ok b' p' pr := h
                  obtain ⟨he2, hw2, hh2, hl2⟩ := ih fr b2 (y + 1) b3 rest1 prog hrec
                  injection h2 with e1 e2 e3
                  subst e1
                  exact ⟨dataExt_trans hext1 he2, by omega, by omega, by omega⟩
            · cases hrec : row_pass fr b (y + 1) rest with
              | panic =>
                rw [hrec] at h
                have h2 : PassRes.panic = PassRes.ok b' p' pr := h
                cases h2
              | contra =>
                rw [hrec] at h
                have h2 : PassRes.contra = PassRes.ok b' p' pr := h
                cases h2
              | ok b3 rest1 prog =>
                rw [hrec] at h
                have h2 : PassRes.ok b3 (perms1 :: rest1) (false || prog)
                    = PassRes.ok b' p' pr := h
                injection h2 with e1 e2 e3
                subst e1
                exact ih fr b (y + 1) b3 rest1 prog hrec
        · cases hrec : row_pass fr b (y + 1) rest with
          | panic =>
            rw [hrec] at h
            have h2 : PassRes.panic = PassRes.ok b' p' pr := h
            cases h2
          | contra =>
            rw [hrec] at h
            have h2 : PassRes.contra = PassRes.ok b' p' pr := h
            cases h2
          | ok b3 rest1 prog =>
            rw [hrec] at h
            have h2 : PassRes.ok b3 (perms1 :: rest1) (false || prog)
                = PassRes.ok b' p' pr := h
            injection h2 with e1 e2 e3
            subst e1
            exact ih fr b (y + 1) b3 rest1 prog hrec

theorem col_checked_parts {b : GuessBoard} {x : Nat} {col : List (Option Cell)}
    (h : col_checked b x = some col) :
    x < b.width ∧ (b.height = 0 ∨ x + b.width * (b.height - 1) < b.data.length) ∧
    col = (List.range b.height).map fun y => b.data.getD (x + b.width * y) none := by
  unfold col_checked at h
  split at h
  · split at h
    · cases h
      exact ⟨by assumption, by assumption, rfl⟩
    · cases h
  · cases h

theorem col_pass_ext : ∀ (permss : SectionPerms) (fr : Bool) (b : GuessBoard) (x : Nat)
    (b' : GuessBoard) (p' : SectionPerms) (pr : Bool),
    col_pass fr b x permss = .ok b' p' pr →
    dataExt b.data b'.data ∧ b'.width = b.width ∧ b'.height = b.height ∧
      b'.data.length = b.data.length := by
  intro permss
  induction permss with
  | nil =>
    intro fr b x b' p' pr h
    cases h
    exact ⟨dataExt_refl _, rfl, rfl, rfl⟩
  | cons perms rest ih =>
    intro fr b x b' p' pr h
    rw [col_pass] at h
    split at h
    · cases h
    · rename_i col hcc
      split at h
      · cases h
      · rename_i perms1 hrm
        have hmatch := retainMatches_sound perms col perms1 hrm
        split at h
        · split at h
          · cases h
          · cases h
          · rename_i newCol hsp
            have hext := sum_perms_ext col perms1 (fun q hq => (hmatch q hq).2) newCol hsp
            split at h
            · split at h
              · cases h
              · rename_i b2 hset
                obtain ⟨hx1, hg1, hcol_eq⟩ := col_checked_parts hcc
                have hext1 : dataExt b.data b2.data := by
                  apply set_col_ext hset
                  intro k u hkh hk
                  apply hext.2
                  rw [hcol_eq, getD_map_range _ _ _ _ hkh]
                  exact hk
                obtain ⟨hd1, hd2, hd3, hd4, hd5, hd6, hd7⟩ := set_col_dims hset
                cases hrec : col_pass fr b2 (x + 1) rest with
                | panic =>
                  rw [hrec] at h
                  have h2 : PassRes.panic = PassRes.ok b' p' pr := h
                  cases h2
                | contra =>
                  rw [hrec] at h
                  have h2 : PassRes.contra = PassRes.ok b' p' pr := h
                  cases h2
                | ok b3 rest1 prog =>
                  rw [hrec] at h
                  have h2 : PassRes.ok b3 (perms1 :: rest1) (true || prog)
                      = PassRes.ok b' p' pr := h
                  obtain ⟨he2, hw2, hh2, hl2⟩ := ih fr b2 (x + 1) b3 rest1 prog hrec
                  injection h2 with e1 e2 e3
                  subst e1
                  exact ⟨dataExt_trans hext1 he2, by omega, by omega, by omega⟩
            · cases hrec : col_pass fr b (x + 1) rest with
              | panic =>
                rw [hrec] at h
                have h2 : PassRes.panic = PassRes.ok b' p' pr := h
                cases h2
              | contra =>
                rw [hrec] at h
                have h2 : PassRes.contra = PassRes.ok b' p' pr := h
                cases h2
              | ok b3 rest1 prog =>
                rw [hrec] at h
                have h2 : PassRes.ok b3 (perms1 :: rest1) (false || prog)
                    = PassRes.ok b' p' pr := h
                injection h2 with e1 e2 e3
                subst e1
                exact ih fr b (x + 1) b3 rest1 prog hrec
        · cases hrec : col_pass fr b (x + 1) rest with
          | panic =>
            rw [hrec] at h
            have h2 : PassRes.panic = PassRes.ok b' p' pr := h
            cases h2
          | contra =>
            rw [hrec] at h
            have h2 : PassRes.contra = PassRes.ok b' p' pr := h
            cases h2
          | ok b3 rest1 prog =>
            rw [hrec] at h
            have h2 : PassRes.ok b3 (perms1 :: rest1) (false || prog)
                = PassRes.ok b' p' pr := h
            injection h2 with e1 e2 e3
            subst e1
            exact ih fr b (x + 1) b3 rest1 prog hrec

theorem row_pass_determined : ∀ (permss : SectionPerms) (fr : Bool) (b : GuessBoard)
    (y : Nat) (b' : GuessBoard) (p' : SectionPerms) (pr : Bool),
    (∀ c ∈ b.data, c.isSome = true) →
    row_pass fr b y permss = .ok b' p' pr → b' = b ∧ pr = false := by
  intro permss
  induction permss with
  | nil =>
    intro fr b y b' p' pr _ h
    cases h
    exact ⟨rfl, rfl⟩
  | cons perms rest ih =>
    intro fr b y b' p' pr hdet h
    rw [row_pass] at h
    split at h
    · cases h
    · rename_i row hrc
      have hrow_eq : row = (b.data.drop (b.width * y)).take b.width := by
        unfold row_checked at hrc
        split at hrc
        · cases hrc
          rfl
        · cases hrc
      have hrowdet : ∀ c ∈ row, c.isSome = true := by
        intro c hc
        rw [hrow_eq] at hc
        exact hdet c (List.mem_of_mem_drop (List.mem_of_mem_take hc))
      split at h
      · cases h
      · rename_i perms1 hrm
        have hmatch := retainMatches_sound perms row perms1 hrm
        split at h
        · split at h
          · cases h
          · cases h
          · rename_i newRow hsp
            have hnr : newRow = row :=
              sum_perms_determined_eq row perms1 hrowdet
                (fun q hq => (hmatch q hq).2) newRow hsp
            split at h
            · rename_i hne
              exact absurd hnr hne
            · cases hrec : row_pass fr b (y + 1) rest with
              | panic =>
                rw [hrec] at h
                have h2 : PassRes.panic = PassRes.ok b' p' pr := h
                cases h2
              | contra =>
                rw [hrec] at h
                have h2 : PassRes.contra = PassRes.ok b' p' pr := h
                cases h2
              | ok b3 rest1 prog =>
                rw [hrec] at h
                have h2 : PassRes.ok b3 (perms1 :: rest1) (false || prog)
                    = PassRes.ok b' p' pr := h
                obtain ⟨hb3, hprog⟩ := ih fr b (y + 1) b3 rest1 prog hdet hrec
                injection h2 with e1 e2 e3
                subst e1
                subst e3
                rw [hprog]
                exact ⟨hb3, rfl⟩
        · cases hrec : row_pass fr b (y + 1) rest with
          | panic =>
            rw [hrec] at h
            have h2 : PassRes.panic = PassRes.ok b' p' pr := h
            cases h2
          | contra =>
            rw [hrec] at h
            have h2 : PassRes.contra = PassRes.ok b' p' pr := h
            cases h2
          | ok b3 rest1 prog =>
            rw [hrec] at h
            have h2 : PassRes.ok b3 (perms1 :: rest1) (false || prog)
                = PassRes.ok b' p' pr := h
            obtain ⟨hb3, hprog⟩ := ih fr b (y + 1) b3 rest1 prog hdet hrec
            injection h2 with e1 e2 e3
            subst e1
            subst e3
            rw [hprog]
            exact ⟨hb3, rfl⟩

theorem col_pass_determined : ∀ (permss : SectionPerms) (fr : Bool) (b : GuessBoard)
    (x : Nat) (b' : GuessBoard) (p' : SectionPerms) (pr : Bool),
    (∀ c ∈ b.data, c.isSome = true) →
    col_pass fr b x permss = .ok b' p' pr → b' = b ∧ pr = false := by
  intro permss
  induction permss with
  | nil =>
    intro fr b x b' p' pr _ h
    cases h
    exact ⟨rfl, rfl⟩
  | cons perms rest ih =>
    intro fr b x b' p' pr hdet h
    rw [col_pass] at h
    split at h
    · cases h
    · rename_i col hcc
      obtain ⟨hx1, hg1, hcol_eq⟩ := col_checked_parts hcc
      have hcoldet : ∀ c ∈ col, c.isSome = true := by
        intro c hc
        rw [hcol_eq] at hc
        obtain ⟨y, hy, rfl⟩ := List.mem_map.mp hc
        have hyh : y < b.height := List.mem_range.mp hy
        have hpos : x + b.width * y < b.data.length := by
          have hle : b.width * y ≤ b.width * (b.height - 1) :=
            Nat.mul_le_mul_left _ (by omega)
          omega
        have hmem : b.data.getD (x + b.width * y) none ∈ b.data := by
          rw [List.getD_eq_getElem _ none hpos]
          exact List.getElem_mem hpos
        exact hdet _ hmem
      split at h
      · cases h
      · rename_i perms1 hrm
        have hmatch := retainMatches_sound perms col perms1 hrm
        split at h
        · split at h
          · cases h
          · cases h
          · rename_i newCol hsp
            have hnr : newCol = col :=
              sum_perms_determined_eq col perms1 hcoldet
                (fun q hq => (hmatch q hq).2) newCol hsp
            split at h
            · rename_i hne
              exact absurd hnr hne
            · cases hrec : col_pass fr b (x + 1) rest with
              | panic =>
                rw [hrec] at h
                have h2 : PassRes.panic = PassRes.ok b' p' pr := h
                cases h2
              | contra =>
                rw [hrec] at h
                have h2 : PassRes.contra = PassRes.ok b' p' pr := h
                cases h2
              | ok b3 rest1 prog =>
                rw [hrec] at h
                have h2 : PassRes.ok b3 (perms1 :: rest1) (false || prog)
                    = PassRes.ok b' p' pr := h
                obtain ⟨hb3, hprog⟩ := ih fr b (x + 1) b3 rest1 prog hdet hrec
                injection h2 with e1 e2 e3
                subst e1
                subst e3
                rw [hprog]
                exact ⟨hb3, rfl⟩
        · cases hrec : col_pass fr b (x + 1) rest with
          | panic =>
            rw [hrec] at h
            have h2 : PassRes.panic = PassRes.ok b' p' pr := h
            cases h2
          | contra =>
            rw [hrec] at h
            have h2 : PassRes.contra = PassRes.ok b' p' pr := h
            cases h2
          | ok b3 rest1 prog =>
            rw [hrec] at h
            have h2 : PassRes.ok b3 (perms1 :: rest1) (false || prog)
                = PassRes.ok b' p' pr := h
            obtain ⟨hb3, hprog⟩ := ih fr b (x + 1) b3 rest1 prog hdet hrec
            injection h2 with e1 e2 e3
            subst e1
            subst e3
            rw [hprog]
            exact ⟨hb3, rfl⟩

/-! ### `materialize` agreement -/

theorem splice_getD_outside {α : Type} (dat v : List α) (N W : Nat) (d : α)
    (hin : N + W ≤ dat.length) (hvlen : v.length = W) (j : Nat)
    (hj : j < N ∨ N + W ≤ j) :
    (dat.take N ++ v ++ dat.drop (N + W)).getD j d = dat.getD j d := by
  have htlen : (dat.take N).length = N := by
    rw [List.length_take]
    omega
  have hl1 : (dat.take N ++ v).length = N + W := by
    rw [List.length_append, htlen, hvlen]
  rcases hj with hj | hj
  · rw [getD_append_left_of_lt _ _ _ _ (by omega), getD_append_left_of_lt _ _ _ _ (by omega),
      getD_take_of_lt _ _ _ _ hj]
  · rw [getD_append_right_of_le _ _ _ _ (by omega), hl1, getD_drop_add]
    congr 1
    omega

theorem splice_getD_inside {α : Type} (dat v : List α) (N W : Nat) (d : α)
    (hin : N + W ≤ dat.length) (hvlen : v.length = W) (j : Nat)
    (hj : N ≤ j ∧ j < N + W) :
    (dat.take N ++ v ++ dat.drop (N + W)).getD j d = v.getD (j - N) d := by
  have htlen : (dat.take N).length = N := by
    rw [List.length_take]
    omega
  rw [getD_append_left_of_lt _ _ _ _ (by rw [List.length_append, htlen, hvlen]; omega),
    getD_append_right_of_le _ _ _ _ (by omega), htlen]

theorem materialize_fold_spec (b : GuessBoard) (w : Nat) (hbw : b.width = w) :
    ∀ (ys : List Nat) (fb out : Board Cell), fb.width = w →
      (ys.foldlM (fun fb y => (row_checked b y).bind fun r =>
          (unwrapLine r).bind fun r1 => set_row fb y r1) fb) = some out →
      (out.width = fb.width ∧ out.height = fb.height ∧
        out.data.length = fb.data.length) ∧
      (∀ j, (∀ y ∈ ys, ¬(w * y ≤ j ∧ j < w * y + w)) →
        out.data.getD j false = fb.data.getD j false) ∧
      (∀ j u y, y ∈ ys → (w * y ≤ j ∧ j < w * y + w) →
        b.data.getD j none = some u → out.data.getD j false = u) := by
  intro ys
  induction ys with
  | nil =>
    intro fb out hw h
    simp only [List.foldlM_nil] at h
    cases h
    exact ⟨⟨rfl, rfl, rfl⟩, fun j _ => rfl, fun j u y hy => by cases hy⟩
  | cons y ys ih =>
    intro fb out hw h
    rw [List.foldlM_cons] at h
    simp only [Option.bind_eq_bind] at h
    cases hr : row_checked b y with
    | none =>
      rw [hr] at h
      simp at h
    | some r =>
      rw [hr] at h
      simp only [Option.some_bind] at h
      cases hu : unwrapLine r with
      | none =>
        rw [hu] at h
        simp at h
      | some r1 =>
        rw [hu] at h
        simp only [Option.some_bind] at h
        cases hs : set_row fb y r1 with
        | none =>
          rw [hs] at h
          simp at h
        | some fb1 =>
          rw [hs] at h
          simp only [Option.some_bind] at h
          obtain ⟨hsw, hsh, hsl, hyw, hin, hr1len, hdata⟩ := set_row_dims hs
          have hw1 : fb1.width = w := by omega
          obtain ⟨⟨how, hoh, hol⟩, hpart1, hpart2⟩ := ih fb1 out hw1 h
          have hrow_eq : r = (b.data.drop (b.width * y)).take b.width := by
            unfold row_checked at hr
            split at hr
            · cases hr
              rfl
            · cases hr
          refine ⟨⟨by omega, by omega, by omega⟩, ?_, ?_⟩
          · intro j hj
            have hj0 := hj y (List.mem_cons_self _ _)
            rw [hpart1 j (fun y2 hy2 => hj y2 (List.mem_cons_of_mem _ hy2)), hdata]
            apply splice_getD_outside _ _ _ _ _ hin (by omega)
            rw [hw]
            omega
          · intro j u y2 hy2 hreg hbj
            rcases List.mem_cons.mp hy2 with heq | hy2t
            · subst heq
              by_cases hc : ∃ y3, y3 ∈ ys ∧ (w * y3 ≤ j ∧ j < w * y3 + w)
              · obtain ⟨y3, hy3, hreg3⟩ := hc
                exact hpart2 j u y3 hy3 hreg3 hbj
              · push_neg at hc
                rw [hpart1 j (fun y3 hy3 hcon => by
                  have h5 := hc y3 hy3 hcon.1
                  omega)]
                rw [hdata]
                have hregf : fb.width * y2 ≤ j ∧ j < fb.width * y2 + fb.width := by
                  rw [hw]
                  exact hreg
                have hrf2 : j - fb.width * y2 < b.width := by
                  have h6 := hregf
                  rw [hw] at h6
                  rw [hbw, hw]
                  omega
                rw [splice_getD_inside _ _ _ _ _ hin (by omega) j hregf]
                obtain ⟨hr1l, hr1v⟩ := unwrapLine_spec r r1 hu
                apply hr1v
                rw [hrow_eq]
                rw [getD_take_of_lt _ _ _ _ hrf2, getD_drop_add]
                have harith : b.width * y2 + (j - fb.width * y2) = j := by
                  have h6 := hregf
                  rw [hw] at h6
                  rw [hbw, hw]
                  omega
                rw [harith]
                exact hbj
            · exact hpart2 j u y2 hy2t hreg hbj

theorem materialize_agree {b : GuessBoard} {sol : Board Cell}
    (hlen : b.data.length = b.width * b.height)
    (hmat : materialize b = some sol) :
    sol.width = b.width ∧ sol.height = b.height ∧
    sol.data.length = b.width * b.height ∧
    ∀ j u, b.data.getD j none = some u → sol.data.getD j false = u := by
  unfold materialize at hmat
  simp only [Option.bind_eq_bind] at hmat
  have hfw : (Board.newFill b.width b.height (false : Cell)).width = b.width := rfl
  obtain ⟨⟨how, hoh, hol⟩, hpart1, hpart2⟩ :=
    materialize_fold_spec b b.width rfl (List.range b.height)
      (Board.newFill b.width b.height false) sol hfw hmat
  have hfl : (Board.newFill b.width b.height (false : Cell)).data.length
      = b.width * b.height := by
    simp [Board.newFill]
  refine ⟨how, hoh, by omega, ?_⟩
  intro j u hj
  have hjlen : j < b.data.length := getD_some_lt_length hj
  have hw0 : 0 < b.width := by
    rcases Nat.eq_zero_or_pos b.width with h0 | h0
    · rw [h0] at hlen
      omega
    · exact h0
  have hdm := Nat.div_add_mod j b.width
  have hml : j % b.width < b.width := Nat.mod_lt _ hw0
  have hdy : j / b.width < b.height := by
    rw [Nat.div_lt_iff_lt_mul hw0]
    rw [hlen] at hjlen
    rw [Nat.mul_comm]
    exact hjlen
  exact hpart2 j u (j / b.width) (List.mem_range.mpr hdy) (by omega) hj

/-! ### The backtracking-search invariant -/

/-- Dimension well-formedness of one backtrack entry. -/
def entryWF (w h : Nat) (e : GuessBoard × SectionPerms × SectionPerms) : Prop :=
  e.1.width = w ∧ e.1.height = h ∧ e.1.data.length = w * h

/-- The search invariant tying a solver state to the solutions `prev`
found so far: boards are well-dimensioned; every backtrack entry
contradicts every found solution (its branch can never reproduce one);
backtrack entries pairwise contradict each other and the live board (each
later branch has guessed a cell the other branch fixed oppositely); and
the live board either contradicts every found solution or is fully
determined (the latter exactly in the state right after a solution was
returned). -/
def SearchInv (w h : Nat) (st : Picross) (prev : List (Board Cell)) : Prop :=
  (st.board.width = w ∧ st.board.height = h ∧ st.board.data.length = w * h) ∧
  (∀ e ∈ st.backtrack, entryWF w h e) ∧
  (∀ e ∈ st.backtrack, ∀ S ∈ prev, solIncompat e.1.data S.data) ∧
  List.Pairwise (fun a b => dataIncompat a.1.data b.1.data) st.backtrack ∧
  (∀ e ∈ st.backtrack, dataIncompat e.1.data st.board.data) ∧
  ((∀ S ∈ prev, solIncompat st.board.data S.data) ∨
    (∀ c ∈ st.board.data, c.isSome = true))

theorem pop_inv (w h : Nat) (prev : List (Board Cell))
    (e : GuessBoard × SectionPerms × SectionPerms)
    (rest : List (GuessBoard × SectionPerms × SectionPerms)) (nb : Nat)
    (hwf : ∀ e2 ∈ e :: rest, entryWF w h e2)
    (hsols : ∀ e2 ∈ e :: rest, ∀ S ∈ prev, solIncompat e2.1.data S.data)
    (hpw : List.Pairwise (fun a b => dataIncompat a.1.data b.1.data) (e :: rest)) :
    SearchInv w h ⟨e.1, e.2.1, e.2.2, rest, nb⟩ prev := by
  obtain ⟨hhead, htail⟩ := List.pairwise_cons.mp hpw
  exact ⟨hwf e (List.mem_cons_self _ _),
    fun e2 he2 => hwf e2 (List.mem_cons_of_mem _ he2),
    fun e2 he2 => hsols e2 (List.mem_cons_of_mem _ he2),
    htail,
    fun e2 he2 => dataIncompat_symm (hhead e2 he2),
    Or.inl (hsols e (List.mem_cons_self _ _))⟩

theorem setCellAt_ext {b : GuessBoard} {i : Nat} {v : Option Cell}
    (hi : b.data.getD i none = none) : dataExt b.data (setCellAt b i v).data := by
  intro j u hj
  have hne : i ≠ j := by
    intro he
    rw [he] at hi
    rw [hi] at hj
    cases hj
  show (b.data.set i v).getD j none = some u
  rw [getD_set_ne _ _ _ _ _ hne]
  exact hj

theorem step_inv (w h : Nat) (fr : Bool) (st : Picross) (prev : List (Board Cell))
    (hinv : SearchInv w h st prev) :
    (∀ fr1 st1, step fr st = .next fr1 st1 → SearchInv w h st1 prev) ∧
    (∀ sol st1, step fr st = .found sol st1 →
      SearchInv w h st1 (prev ++ [sol]) ∧ ∀ S ∈ prev, sol ≠ S) := by
  obtain ⟨⟨hbw, hbh, hbl⟩, hewf, hesol, hpw, helive, hdisj⟩ := hinv
  cases hrp : row_pass fr st.board 0 st.rowsPerms with
  | panic =>
    constructor
    · intro fr1 st1 hstep
      simp only [step, hrp] at hstep
      cases hstep
    · intro sol st1 hstep
      simp only [step, hrp] at hstep
      cases hstep
  | contra =>
    have hcontra : ∀ (res : StepRes), step fr st = res → handle_contra st fr = res := by
      intro res hstep
      rw [← hstep]
      simp only [step, hrp]
    constructor
    · intro fr1 st1 hstep
      have hh := hcontra _ hstep
      unfold handle_contra at hh
      cases hbt : st.backtrack with
      | nil =>
        rw [hbt] at hh
        cases hh
      | cons e rest =>
        rw [hbt] at hh
        injection hh with he1 he2
        subst he2
        rw [hbt] at hewf hesol hpw
        exact pop_inv w h prev e rest st.numBacktracks hewf hesol hpw
    · intro sol st1 hstep
      have hh := hcontra _ hstep
      unfold handle_contra at hh
      cases hbt : st.backtrack with
      | nil => rw [hbt] at hh; cases hh
      | cons e rest => rw [hbt] at hh; cases hh
  | ok b1 rp1 prog1 =>
    cases hcp : col_pass fr b1 0 st.colsPerms with
    | panic =>
      constructor
      · intro fr1 st1 hstep
        simp only [step, hrp, hcp] at hstep
        cases hstep
      · intro sol st1 hstep
        simp only [step, hrp, hcp] at hstep
        cases hstep
    | contra =>
      have hcontra : ∀ (res : StepRes), step fr st = res → handle_contra st fr = res := by
        intro res hstep
        rw [← hstep]
        simp only [step, hrp, hcp]
      constructor
      · intro fr1 st1 hstep
        have hh := hcontra _ hstep
        unfold handle_contra at hh
        cases hbt : st.backtrack with
        | nil =>
          rw [hbt] at hh
          cases hh
        | cons e rest =>
          rw [hbt] at hh
          injection hh with he1 he2
          subst he2
          rw [hbt] at hewf hesol hpw
          exact pop_inv w h prev e rest st.numBacktracks hewf hesol hpw
      · intro sol st1 hstep
        have hh := hcontra _ hstep
        unfold handle_contra at hh
        cases hbt : st.backtrack with
        | nil => rw [hbt] at hh; cases hh
        | cons e rest => rw [hbt] at hh; cases hh
    | ok b2 cp1 prog2 =>
      obtain ⟨hex1, hw1, hh1, hl1⟩ := row_pass_ext st.rowsPerms fr st.board 0 b1 rp1 prog1 hrp
      obtain ⟨hex2, hw2, hh2, hl2⟩ := col_pass_ext st.colsPerms fr b1 0 b2 cp1 prog2 hcp
      have hext : dataExt st.board.data b2.data := dataExt_trans hex1 hex2
      have hb2w : b2.width = w := by omega
      have hb2h : b2.height = h := by omega
      have hb2l : b2.data.length = w * h := by omega
      have helive2 : ∀ e ∈ st.backtrack, dataIncompat e.1.data b2.data :=
        fun e he => dataIncompat_ext_right (helive e he) hext
      have hdisj2 : (∀ S ∈ prev, solIncompat b2.data S.data) ∨
          ((∀ c ∈ b2.data, c.isSome = true) ∧ prog1 = false ∧ prog2 = false) := by
        rcases hdisj with hd | hd
        · exact Or.inl (fun S hS => solIncompat_ext (hd S hS) hext)
        · obtain ⟨he1, hp1⟩ := row_pass_determined st.rowsPerms fr st.board 0 b1 rp1 prog1 hd hrp
          have hd1 : ∀ c ∈ b1.data, c.isSome = true := by
            rw [he1]
            exact hd
          obtain ⟨he2, hp2⟩ := col_pass_determined st.colsPerms fr b1 0 b2 cp1 prog2 hd1 hcp
          have hd2 : ∀ c ∈ b2.data, c.isSome = true := by
            rw [he2]
            exact hd1
          exact Or.inr ⟨hd2, hp1, hp2⟩
      cases hprog : prog1 || prog2 with
      | true =>
        have hdsol : ∀ S ∈ prev, solIncompat b2.data S.data := by
          rcases hdisj2 with hd | ⟨_, hp1, hp2⟩
          · exact hd
          · rw [hp1, hp2] at hprog
            cases hprog
        cases hall : b2.data.all (·.isSome) with
        | true =>
          cases hmat : materialize b2 with
          | none =>
            constructor
            · intro fr1 st1 hstep
              simp only [step, hrp, hcp, hprog, hall, hmat, if_true] at hstep
              cases hstep
            · intro sol st1 hstep
              simp only [step, hrp, hcp, hprog, hall, hmat, if_true] at hstep
              cases hstep
          | some sol =>
            obtain ⟨hsw, hsh, hsl, hagree⟩ :=
              materialize_agree (by rw [hb2w, hb2h]; exact hb2l) hmat
            have hsol_ne : ∀ S ∈ prev, sol ≠ S := by
              intro S hS heqs
              obtain ⟨j, v, hj1, hj2, hj3⟩ := hdsol S hS
              have hsolj : sol.data.getD j false = v := hagree j v hj1
              rw [heqs] at hsolj
              rw [hsolj] at hj3
              cases v <;> simp at hj3
            have hnew : SearchInv w h ⟨b2, rp1, cp1, st.backtrack, st.numBacktracks⟩
                (prev ++ [sol]) := by
              refine ⟨⟨hb2w, hb2h, hb2l⟩, hewf, ?_, hpw, helive2, ?_⟩
              · intro e he S hS
                rcases List.mem_append.mp hS with hS | hS
                · exact hesol e he S hS
                · rw [List.mem_singleton.mp hS]
                  obtain ⟨j, v, hj1, hj2⟩ := helive2 e he
                  have hjl : j < b2.data.length := getD_some_lt_length hj2
                  refine ⟨j, v, hj1, ?_, hagree j (!v) hj2⟩
                  rw [hsl, hb2w, hb2h, ← hb2l]
                  exact hjl
              · exact Or.inr (List.all_eq_true.mp hall)
            constructor
            · intro fr1 st1 hstep
              simp only [step, hrp, hcp, hprog, hall, hmat, if_true] at hstep
              cases hstep
            · intro sol2 st1 hstep
              simp only [step, hrp, hcp, hprog, hall, hmat, if_true] at hstep
              injection hstep with hs1 hs2
              subst hs1
              subst hs2
              exact ⟨hnew, hsol_ne⟩
        | false =>
          constructor
          · intro fr1 st1 hstep
            simp only [step, hrp, hcp, hprog, hall, if_true, Bool.false_eq_true,
              if_false] at hstep
            injection hstep with hs1 hs2
            subst hs2
            refine ⟨⟨hb2w, hb2h, hb2l⟩, hewf, hesol, hpw, helive2, Or.inl ?_⟩
            rcases hdisj2 with hd | ⟨hd, _, _⟩
            · exact hd
            · rw [List.all_eq_true.mpr hd] at hall
              cases hall
          · intro sol st1 hstep
            simp only [step, hrp, hcp, hprog, hall, if_true, Bool.false_eq_true,
              if_false] at hstep
            cases hstep
      | false =>
        cases hidx : b2.data.findIdx? (·.isNone) with
        | some i =>
          have hdsol : ∀ S ∈ prev, solIncompat b2.data S.data := by
            rcases hdisj2 with hd | ⟨hd, _, _⟩
            · exact hd
            · rw [findIdx?_isNone_eq_none b2.data 0 (List.all_eq_true.mpr hd)] at hidx
              cases hidx
          obtain ⟨_, hilen0, hival, _⟩ := findIdx?_isNone_spec b2.data 0 i hidx
          have hilen : i < b2.data.length := by simpa using hilen0
          have hinone : b2.data.getD i none = none := by
            have := hival
            simp only [Nat.sub_zero] at this
            cases hcell : b2.data.getD i (some false) with
            | none =>
              rw [List.getD_eq_getElem _ _ hilen] at hcell ⊢
              exact hcell
            | some v =>
              rw [this] at hcell
              cases hcell
          have hextT : dataExt b2.data (setCellAt b2 i (some true)).data :=
            setCellAt_ext hinone
          have hextF : dataExt b2.data (setCellAt b2 i (some false)).data :=
            setCellAt_ext hinone
          have hTlen : (setCellAt b2 i (some true)).data.length = w * h := by
            show (b2.data.set i (some true)).length = w * h
            rw [List.length_set]
            exact hb2l
          have hFlen : (setCellAt b2 i (some false)).data.length = w * h := by
            show (b2.data.set i (some false)).length = w * h
            rw [List.length_set]
            exact hb2l
          have hTi : (setCellAt b2 i (some true)).data.getD i none = some true := by
            show (b2.data.set i (some true)).getD i none = some true
            exact getD_set_self _ _ _ _ hilen
          have hFi : (setCellAt b2 i (some false)).data.getD i none = some false := by
            show (b2.data.set i (some false)).getD i none = some false
            exact getD_set_self _ _ _ _ hilen
          constructor
          · intro fr1 st1 hstep
            simp only [step, hrp, hcp, hprog, hidx, Bool.false_eq_true, if_false] at hstep
            injection hstep with hs1 hs2
            subst hs2
            refine ⟨⟨hb2w, hb2h, hTlen⟩, ?_, ?_, ?_, ?_, Or.inl ?_⟩
            · intro e he
              rcases List.mem_cons.mp he with he | he
              · rw [he]
                exact ⟨hb2w, hb2h, hFlen⟩
              · exact hewf e he
            · intro e he S hS
              rcases List.mem_cons.mp he with he | he
              · rw [he]
                obtain ⟨j, v, hj1, hj2, hj3⟩ := hdsol S hS
                exact ⟨j, v, hextF j v hj1, hj2, hj3⟩
              · exact hesol e he S hS
            · refine List.pairwise_cons.mpr ⟨?_, hpw⟩
              intro e he
              obtain ⟨j, v, hj1, hj2⟩ := helive2 e he
              refine ⟨j, !v, hextF j (!v) hj2, ?_⟩
              simpa using hj1
            · intro e he
              rcases List.mem_cons.mp he with he | he
              · rw [he]
                exact ⟨i, false, hFi, by simpa using hTi⟩
              · obtain ⟨j, v, hj1, hj2⟩ := helive2 e he
                exact ⟨j, v, hj1, hextT j (!v) hj2⟩
            · intro S hS
              obtain ⟨j, v, hj1, hj2, hj3⟩ := hdsol S hS
              exact ⟨j, v, hextT j v hj1, hj2, hj3⟩
          · intro sol st1 hstep
            simp only [step, hrp, hcp, hprog, hidx, Bool.false_eq_true, if_false] at hstep
            cases hstep
        | none =>
          have hcontra : ∀ (res : StepRes), step fr st = res →
              handle_contra ⟨b2, rp1, cp1, st.backtrack, st.numBacktracks⟩ false = res := by
            intro res hstep
            rw [← hstep]
            simp only [step, hrp, hcp, hprog, hidx, Bool.false_eq_true, if_false]
          constructor
          · intro fr1 st1 hstep
            have hh := hcontra _ hstep
            unfold handle_contra at hh
            cases hbt : st.backtrack with
            | nil =>
              rw [hbt] at hh
              cases hh
            | cons e rest =>
              rw [hbt] at hh
              injection hh with he1 he2
              subst he2
              rw [hbt] at hewf hesol hpw
              exact pop_inv w h prev e rest st.numBacktracks hewf hesol hpw
          · intro sol st1 hstep
            have hh := hcontra _ hstep
            unfold handle_contra at hh
            cases hbt : st.backtrack with
            | nil => rw [hbt] at hh; cases hh
            | cons e rest => rw [hbt] at hh; cases hh

theorem find_solution_go_inv : ∀ (ifuel : Nat) (fr : Bool) (st : Picross)
    (w h : Nat) (prev : List (Board Cell)),
    SearchInv w h st prev →
    ∀ sol st1, find_solution_go ifuel fr st = .found sol st1 →
      SearchInv w h st1 (prev ++ [sol]) ∧ ∀ S ∈ prev, sol ≠ S := by
  intro ifuel
  induction ifuel with
  | zero =>
    intro fr st w h prev _ sol st1 hrun
    cases hrun
  | succ n ih =>
    intro fr st w h prev hinv sol st1 hrun
    rw [find_solution_go] at hrun
    cases hs : step fr st with
    | panic =>
      rw [hs] at hrun
      cases hrun
    | noMore =>
      rw [hs] at hrun
      cases hrun
    | found sol2 st2 =>
      rw [hs] at hrun
      have hrun2 : RunRes.found sol2 st2 = RunRes.found sol st1 := hrun
      injection hrun2 with he1 he2
      have hres := (step_inv w h fr st prev hinv).2 sol2 st2 hs
      rw [he1, he2] at hres
      exact hres
    | next fr1 st2 =>
      rw [hs] at hrun
      exact ih fr1 st2 w h prev ((step_inv w h fr st prev hinv).1 fr1 st2 hs) sol st1 hrun

theorem get_solutions_inv : ∀ (ofuel ifuel : Nat) (st : Picross) (w h : Nat)
    (prev out : List (Board Cell)),
    SearchInv w h st prev → get_solutions ofuel ifuel st = some out →
    (∀ S ∈ prev, ∀ T ∈ out, T ≠ S) ∧ out.Nodup := by
  intro ofuel
  induction ofuel with
  | zero =>
    intro ifuel st w h prev out _ hrun
    cases hrun
  | succ o ih =>
    intro ifuel st w h prev out hinv hrun
    rw [get_solutions] at hrun
    cases hf : find_solution ifuel st with
    | panic =>
      rw [hf] at hrun
      cases hrun
    | fuelOut =>
      rw [hf] at hrun
      cases hrun
    | noMore =>
      rw [hf] at hrun
      have hrun2 : (some [] : Option (List (Board Cell))) = some out := hrun
      injection hrun2 with he
      subst he
      refine ⟨?_, List.nodup_nil⟩
      intro S hS T hT
      cases hT
    | found sol st1 =>
      rw [hf] at hrun
      have hrunm : Option.map (fun x => sol :: x) (get_solutions o ifuel st1)
          = some out := hrun
      cases hrest : get_solutions o ifuel st1 with
      | none =>
        rw [hrest] at hrunm
        have hrun2 : (none : Option (List (Board Cell))) = some out := hrunm
        cases hrun2
      | some rest =>
        rw [hrest] at hrunm
        have hrun2 : (some (sol :: rest) : Option (List (Board Cell))) = some out := hrunm
        injection hrun2 with he
        subst he
        obtain ⟨hinv1, hne⟩ :=
          find_solution_go_inv ifuel true st w h prev hinv sol st1 hf
        obtain ⟨hall, hnd⟩ := ih ifuel st1 w h (prev ++ [sol]) rest hinv1 hrest
        constructor
        · intro S hS T hT
          rcases List.mem_cons.mp hT with hT | hT
          · rw [hT]
            exact hne S hS
          · exact hall S (List.mem_append_left _ hS) T hT
        · refine List.nodup_cons.mpr ⟨fun hmem => ?_, hnd⟩
          exact hall sol (List.mem_append_right _ (List.mem_singleton.mpr rfl)) sol hmem rfl

theorem Picross.new_inv (rh ch : List (List Nat)) (st : Picross)
    (h : Picross.new rh ch = some st) :
    SearchInv ch.length rh.length st [] := by
  unfold Picross.new at h
  simp only [Option.bind_eq_bind] at h
  cases h1 : rh.mapM (fun hint => permutations hint ch.length) with
  | none =>
    rw [h1] at h
    simp at h
  | some rows =>
    rw [h1] at h
    simp only [Option.some_bind] at h
    cases h2 : ch.mapM (fun hint => permutations hint rh.length) with
    | none =>
      rw [h2] at h
      simp at h
    | some cols =>
      rw [h2] at h
      have h3 : (some (⟨Board.newFill ch.length rh.length none, rows, cols, [], 0⟩ : Picross)
          : Option Picross) = some st := h
      injection h3 with he
      subst he
      refine ⟨⟨rfl, rfl, by simp [Board.newFill]⟩, ?_, ?_, List.Pairwise.nil, ?_, Or.inl ?_⟩
      · intro e he
        cases he
      · intro e he
        cases he
      · intro e he
        cases he
      · intro S hS
        cases hS

/-- C8: solutions are enumerated without repetition and deterministically:
whenever `get_solutions` (with any fuel bounds) returns the list `sols`
for the puzzle built from the given row and column hints, no two of the
returned grids are equal, and re-running the whole solve from scratch on
the same hints returns exactly the same list.  (Determinism is immediate
since the embedded solver is a pure function of the hints; distinctness
follows from the search invariant that every backtrack entry fixes some
cell opposite to every already-found solution.) -/
theorem claim_C8 (rh ch : List (List Nat)) (ofuel ifuel : Nat) (st : Picross)
    (sols : List (Board Cell))
    (hnew : Picross.new rh ch = some st)
    (hrun : get_solutions ofuel ifuel st = some sols) :
    sols.Nodup ∧
    ∀ st2, Picross.new rh ch = some st2 → get_solutions ofuel ifuel st2 = some sols := by
  obtain ⟨_, hnd⟩ := get_solutions_inv ofuel ifuel st ch.length rh.length [] sols
    (Picross.new_inv rh ch st hnew) hrun
  refine ⟨hnd, fun st2 hnew2 => ?_⟩
  rw [hnew] at hnew2
  injection hnew2 with he
  subst he
  exact hrun

/-- Witness for C8 at the 2×2 puzzle with hints `[1]`/`[1]` everywhere,
which has exactly the two diagonal solutions. -/
theorem claim_C8_witness :
    ([⟨2, 2, [true, false, false, true]⟩, ⟨2, 2, [false, true, true, false]⟩] :
      List (Board Cell)).Nodup ∧
    ∀ st2, Picross.new [[1], [1]] [[1], [1]] = some st2 →
      get_solutions 3 20 st2 = some
        [⟨2, 2, [true, false, false, true]⟩, ⟨2, 2, [false, true, true, false]⟩] :=
  claim_C8 [[1], [1]] [[1], [1]] 3 20
    ⟨⟨2, 2, [none, none, none, none]⟩,
      [[[true, false], [false, true]], [[true, false], [false, true]]],
      [[[true, false], [false, true]], [[true, false], [false, true]]], [], 0⟩
    [⟨2, 2, [true, false, false, true]⟩, ⟨2, 2, [false, true, true, false]⟩]
    (by decide) (by decide)
